import Mathlib

/- Verification of the classifier-population management and deletion
subsystem of the piecewise XCS implementation.

The embedding models:
- `piecewise/dtype/classifier_set/population.py` (Population and its atomic
  operations, the record_operation decorator),
- `piecewise/algorithm/component/deletion.py` (DeletionStrategyABC and
  XCSRouletteWheelDeletion).

Python objects are modelled as follows: a classifier object is a record
carrying a unique `id` standing for Python object identity; the population
holds the current state of its member objects.  Numeric scalars are
rationals; Python int() truncation is modelled explicitly.  Operations that
can raise (MemberNotFoundError, InvalidSizeError, failed assert) return
`Except`. -/

attribute [local semireducible] Rat.mul Rat.add Rat.inv Rat.sub

instance {ε α : Type} [DecidableEq ε] [DecidableEq α] : DecidableEq (Except ε α) := fun a b =>
  match a, b with
  | .error e, .error f => decidable_of_iff (e = f) (by simp)
  | .ok x, .ok y => decidable_of_iff (x = y) (by simp)
  | .error _, .ok _ => isFalse (fun h => Except.noConfusion h)
  | .ok _, .error _ => isFalse (fun h => Except.noConfusion h)

namespace Piecewise

/-- A classifier as seen by the population subsystem: `id` models Python
object identity, `rule` is opaque except for equality, the remaining
scalars feed the deletion-vote formula. -/
structure Classifier where
  id : Nat
  rule : Nat
  numerosity : Nat
  fitness : ℚ
  experience : ℚ
  actionSetSize : ℚ
deriving DecidableEq

/-- Errors raised by the subsystem: MemberNotFoundError, InvalidSizeError
and failed `assert` statements. -/
inductive PopError where
  | memberNotFound
  | invalidSize
  | assertionError
deriving DecidableEq

/-- Modelled from the spec: the OperationLedger (PopulationOperationRecorder,
whose source file is not available) accumulates named counters of
micro-classifier units affected per labeled operation type. -/
def Ledger : Type := List (String × Nat)

instance : DecidableEq Ledger := by
  unfold Ledger
  infer_instance

/-- The empty ledger. -/
def Ledger.empty : Ledger := []

/-- Current counter value for a label (0 when the label was never recorded). -/
def Ledger.count : Ledger → String → Nat
  | [], _ => 0
  | (k, v) :: rest, label => if k = label then v else Ledger.count rest label

/-- Add `n` units to the counter of `label`. -/
def Ledger.record : Ledger → String → Nat → Ledger
  | [], label, n => [(label, n)]
  | (k, v) :: rest, label, n =>
      if k = label then (k, v + n) :: rest
      else (k, v) :: Ledger.record rest label n

/-- The fixed label under which absorption events are recorded. -/
def absorptionLabel : String := "absorption"

/-- The fixed label under which deletion events are recorded. -/
def deletionLabel : String := "deletion"

/-- Population state: insertion-ordered member list, cached micro count,
fixed capacity, and the operation ledger. -/
structure Population where
  members : List Classifier
  numMicros : Int
  maxMicros : Int
  recorder : Ledger
deriving DecidableEq

/-- Sum of `numerosity` over a list of classifiers. -/
def microsSum (l : List Classifier) : Int :=
  (l.map (fun c => (c.numerosity : Int))).sum

/-- macro_count property: number of macro-classifiers. -/
def Population.macroCount (p : Population) : Nat := p.members.length

/-- Python `int()` on a rational: truncation toward zero. -/
def pyInt (q : ℚ) : Int := if 0 ≤ q then ⌊q⌋ else ⌈q⌉

/-- Population._validate_and_return_max_micros: coerce with int() and require
the result positive, otherwise raise InvalidSizeError. -/
def validateAndReturnMaxMicros (maxMicros : ℚ) : Except PopError Int :=
  if 0 < pyInt maxMicros then .ok (pyInt maxMicros) else .error .invalidSize

/-- Population.__init__: validate max_micros, start with num_micros = 0,
an empty ledger and no members. -/
def mkPopulation (maxMicros : ℚ) : Except PopError Population :=
  match validateAndReturnMaxMicros maxMicros with
  | .error e => .error e
  | .ok m => .ok ⟨[], 0, m, Ledger.empty⟩

/-- Membership test by object identity, as used by the membership-verification
wrapper. -/
def Population.containsId (p : Population) (cid : Nat) : Bool :=
  p.members.any (fun c => c.id == cid)

/-- Population._inc_num_micros. -/
def Population.incNumMicros (p : Population) (n : Int) : Population :=
  { p with numMicros := p.numMicros + n }

/-- Population._dec_num_micros, including its `assert self._num_micros >= 0`. -/
def Population.decNumMicros (p : Population) (n : Int) : Except PopError Population :=
  let nm := p.numMicros - n
  if 0 ≤ nm then .ok { p with numMicros := nm } else .error .assertionError

/-- Ledger update step of the record_operation decorator: record the absolute
micro-delta of an atomic operation under the supplied label, if any. -/
def applyLabel (label : Option String) (before : Int) (p : Population) : Population :=
  match label with
  | none => p
  | some lab =>
      { p with recorder := Ledger.record p.recorder lab (p.numMicros - before).natAbs }

/-- record_operation decorator: run an atomic body, then record the absolute
change in num_micros under the operation label. -/
def recordOperation (label : Option String)
    (body : Population → Except PopError Population) (p : Population) :
    Except PopError Population :=
  match body p with
  | .error e => .error e
  | .ok p' => .ok (applyLabel label p.numMicros p')

/-- Body of Population._atomic_add_new: append the classifier and increase
num_micros by its numerosity. -/
def atomicAddNewBody (c : Classifier) (p : Population) : Except PopError Population :=
  .ok (Population.incNumMicros { p with members := p.members ++ [c] } c.numerosity)

/-- Increment by `n` the numerosity of the member object with identity `cid`
(mutation of a Python object shared with the member list). -/
def updateNum (l : List Classifier) (cid : Nat) (n : Nat) : List Classifier :=
  l.map (fun x => if x.id = cid then { x with numerosity := x.numerosity + n } else x)

/-- Decrement by one the numerosity of the member object with identity `cid`. -/
def decNum (l : List Classifier) (cid : Nat) : List Classifier :=
  l.map (fun x => if x.id = cid then { x with numerosity := x.numerosity - 1 } else x)

/-- Remove the first list entry with identity `cid` (Python list.remove). -/
def removeFirstId : List Classifier → Nat → List Classifier
  | [], _ => []
  | m :: rest, cid => if m.id = cid then rest else m :: removeFirstId rest cid

/-- Body of Population._atomic_copy_existing: `assert num_copies >= 1`,
increase the existing classifier's numerosity and num_micros. -/
def atomicCopyExistingBody (cid : Nat) (numCopies : Nat) (p : Population) :
    Except PopError Population :=
  if 1 ≤ numCopies then
    .ok (Population.incNumMicros { p with members := updateNum p.members cid numCopies }
          numCopies)
  else .error .assertionError

/-- Body of Population._atomic_remove_whole: remove the member entirely and
decrease num_micros by its numerosity. -/
def atomicRemoveWholeBody (cid : Nat) (p : Population) : Except PopError Population :=
  match p.members.find? (fun m => m.id == cid) with
  | none => .error .memberNotFound
  | some m =>
      Population.decNumMicros { p with members := removeFirstId p.members cid } m.numerosity

/-- Body of Population._atomic_remove_single_copy: decrement numerosity when
it exceeds one, otherwise remove the member entirely; then num_micros -= 1. -/
def atomicRemoveSingleCopyBody (cid : Nat) (p : Population) : Except PopError Population :=
  match p.members.find? (fun m => m.id == cid) with
  | none => .error .memberNotFound
  | some m =>
      let p' :=
        if 1 < m.numerosity then { p with members := decNum p.members cid }
        else { p with members := removeFirstId p.members cid }
      Population.decNumMicros p' 1

/-- Population.add: unconditional append via _atomic_add_new. -/
def Population.add (p : Population) (c : Classifier) (label : Option String) :
    Except PopError Population :=
  recordOperation label (atomicAddNewBody c) p

/-- Population.insert: scan members in order for one with an equal rule; if
found, absorb (increment its numerosity by the new classifier's numerosity,
recorded under the fixed "absorption" label); otherwise behave like add. -/
def Population.insert (p : Population) (c : Classifier) (label : Option String) :
    Except PopError Population :=
  match p.members.find? (fun m => m.rule == c.rule) with
  | some m => recordOperation (some absorptionLabel) (atomicCopyExistingBody m.id c.numerosity) p
  | none => recordOperation label (atomicAddNewBody c) p

/-- Modelled from the spec: the verify_membership wrapper (defined in
classifier_set_base.py, whose source file is not available) fails with
MemberNotFoundError before the operation body runs if the argument
classifier is absent from the population. -/
def Population.verifyMembership (p : Population) (cid : Nat) : Except PopError Unit :=
  if p.containsId cid then .ok () else .error .memberNotFound

/-- Population.duplicate: membership-verified numerosity increase. -/
def Population.duplicate (p : Population) (cid : Nat) (numCopies : Nat)
    (label : Option String) : Except PopError Population :=
  match p.verifyMembership cid with
  | .error e => .error e
  | .ok _ => recordOperation label (atomicCopyExistingBody cid numCopies) p

/-- Population.replace: membership-verified on both arguments; remove the
replacee entirely (unlabeled), then add its pre-removal numerosity to the
replacer (under the caller's label). -/
def Population.replace (p : Population) (replaceeId replacerId : Nat)
    (label : Option String) : Except PopError Population :=
  match p.verifyMembership replaceeId with
  | .error e => .error e
  | .ok _ =>
    match p.verifyMembership replacerId with
    | .error e => .error e
    | .ok _ =>
      match p.members.find? (fun m => m.id == replaceeId) with
      | none => .error .memberNotFound
      | some replacee =>
        match recordOperation none (atomicRemoveWholeBody replaceeId) p with
        | .error e => .error e
        | .ok p1 =>
            recordOperation label (atomicCopyExistingBody replacerId replacee.numerosity) p1

/-- Population.delete: membership-verified removal of a single micro-copy,
always recorded under the fixed "deletion" label. -/
def Population.delete (p : Population) (cid : Nat) : Except PopError Population :=
  match p.verifyMembership cid with
  | .error e => .error e
  | .ok _ => recordOperation (some deletionLabel) (atomicRemoveSingleCopyBody cid) p

/-- Population.remove: membership-verified removal of the whole
macro-classifier. -/
def Population.remove (p : Population) (cid : Nat) (label : Option String) :
    Except PopError Population :=
  match p.verifyMembership cid with
  | .error e => .error e
  | .ok _ => recordOperation label (atomicRemoveWholeBody cid) p

/-- Hyperparameters consumed by the deletion policy.  Modelled from the spec:
`get_hyperparam` (hyperparams.py is not available) looks up the named
hyperparameters theta_del and delta from an external store; here they are a
typed record threaded into the policy. -/
structure DeletionParams where
  thetaDel : ℚ
  delta : ℚ
deriving DecidableEq

/-- Modelled from the spec: calc_summary_stat(population, "mean", "fitness")
(classifier_set_stats.py is not available) computes the population-wide mean
of `fitness` across current macro-classifiers. -/
def meanFitness (p : Population) : ℚ :=
  (p.members.map (fun c => c.fitness)).sum / (p.members.length : ℚ)

/-- XCSRouletteWheelDeletion._calc_deletion_vote: base vote
action_set_size * numerosity, inflated by mean_fitness / (fitness/numerosity)
when the classifier has sufficient experience and low per-copy fitness. -/
def calcDeletionVote (hp : DeletionParams) (c : Classifier) (meanFitnessInPop : ℚ) : ℚ :=
  let vote := c.actionSetSize * (c.numerosity : ℚ)
  let fitnessNumerosityRatio := c.fitness / (c.numerosity : ℚ)
  if hp.thetaDel < c.experience ∧ fitnessNumerosityRatio < hp.delta * meanFitnessInPop then
    vote * (meanFitnessInPop / fitnessNumerosityRatio)
  else vote

/-- The deletion votes of all members, in iteration (insertion) order. -/
def deletionVotes (hp : DeletionParams) (p : Population) : List ℚ :=
  p.members.map (fun c => calcDeletionVote hp c (meanFitness p))

/-- Sum of all members' deletion votes. -/
def totalVote (hp : DeletionParams) (p : Population) : ℚ :=
  (deletionVotes hp p).sum

/-- Second loop of _select_for_deletion: scan classifier/vote pairs in order,
accumulating the running vote sum, returning the first classifier whose
running sum strictly exceeds the choice point (none if the scan falls off
the end, modelling the Python function returning None). -/
def scanSelect : List (Classifier × ℚ) → ℚ → ℚ → Option Classifier
  | [], _, _ => none
  | (c, v) :: rest, acc, choicePoint =>
      if choicePoint < acc + v then some c else scanSelect rest (acc + v) choicePoint

/-- XCSRouletteWheelDeletion._select_for_deletion, with the uniform draw
`r` from [0,1) passed explicitly (modelling get_rng().rand(), whose source
file rng.py is not available): choice_point = r * vote_sum, then the
roulette-wheel scan. -/
def selectForDeletion (hp : DeletionParams) (p : Population) (r : ℚ) : Option Classifier :=
  scanSelect (p.members.zip (deletionVotes hp p)) 0 (r * totalVote hp p)

/-- Loop body of DeletionStrategyABC._perform_deletions: `k` remaining
rounds, `i` the index of the next random draw; a failed selection models
population.delete(None), which raises MemberNotFoundError. -/
def performDeletionsAux (hp : DeletionParams) (draws : Nat → ℚ) :
    Nat → Nat → Population → Except PopError Population
  | 0, _, p => .ok p
  | k + 1, i, p =>
      match selectForDeletion hp p (draws i) with
      | none => .error .memberNotFound
      | some c =>
          match p.delete c.id with
          | .error e => .error e
          | .ok p' => performDeletionsAux hp draws k (i + 1) p'

/-- DeletionStrategyABC._perform_deletions: compute the number of deletions,
`assert num_deletions >= 1`, and run that many rounds. -/
def performDeletions (hp : DeletionParams) (draws : Nat → ℚ) (p : Population) :
    Except PopError Population :=
  if 1 ≤ (p.numMicros - p.maxMicros).toNat then
    performDeletionsAux hp draws (p.numMicros - p.maxMicros).toNat 0 p
  else .error .assertionError

/-- DeletionStrategyABC.__call__: perform deletions only when over capacity,
then `assert population.num_micros <= population.max_micros`. -/
def runDeletionPolicy (hp : DeletionParams) (draws : Nat → ℚ) (p : Population) :
    Except PopError Population :=
  match (if p.maxMicros < p.numMicros then performDeletions hp draws p else .ok p) with
  | .error e => .error e
  | .ok p' => if p'.numMicros ≤ p'.maxMicros then .ok p' else .error .assertionError

/-- The population operations a driving algorithm may perform, with the
classifier arguments of member-requiring operations given by object
identity. -/
inductive Op where
  | add (c : Classifier) (label : Option String)
  | insert (c : Classifier) (label : Option String)
  | duplicate (cid : Nat) (numCopies : Nat) (label : Option String)
  | replace (replaceeId replacerId : Nat) (label : Option String)
  | delete (cid : Nat)
  | remove (cid : Nat) (label : Option String)
deriving DecidableEq

/-- Apply one operation to a population. -/
def applyOp (p : Population) : Op → Except PopError Population
  | .add c label => p.add c label
  | .insert c label => p.insert c label
  | .duplicate cid n label => p.duplicate cid n label
  | .replace a b label => p.replace a b label
  | .delete cid => p.delete cid
  | .remove cid label => p.remove cid label

/-- Preconditions of an operation in a given state: classifiers handed to
add/insert are fresh objects with positive numerosity (per the data model),
member-requiring operations receive members, duplicate counts are at least
one, and replace receives two distinct member objects. -/
def WfOp (p : Population) : Op → Prop
  | .add c _ => 1 ≤ c.numerosity ∧ ∀ x ∈ p.members, x.id ≠ c.id
  | .insert c _ => 1 ≤ c.numerosity ∧ ∀ x ∈ p.members, x.id ≠ c.id
  | .duplicate cid n _ => p.containsId cid = true ∧ 1 ≤ n
  | .replace a b _ => p.containsId a = true ∧ p.containsId b = true ∧ a ≠ b
  | .delete cid => p.containsId cid = true
  | .remove cid _ => p.containsId cid = true

instance (p : Population) (op : Op) : Decidable (WfOp p op) := by
  cases op <;> simp only [WfOp] <;> infer_instance

/-- Population states reachable from a freshly constructed population by
operations whose preconditions hold. -/
inductive Reachable : Population → Prop where
  | init : ∀ q p, mkPopulation q = .ok p → Reachable p
  | step : ∀ p op p', Reachable p → WfOp p op → applyOp p op = .ok p' → Reachable p'

/-- The bookkeeping invariant of a well-formed population: the cached
num_micros equals the numerosity sum, every member has positive numerosity,
and members are pairwise-distinct objects. -/
def Inv (p : Population) : Prop :=
  p.numMicros = microsSum p.members ∧
  (∀ c ∈ p.members, 1 ≤ c.numerosity) ∧
  (p.members.map Classifier.id).Nodup

instance (p : Population) : Decidable (Inv p) := by
  unfold Inv
  infer_instance

theorem Ledger.count_record (l : Ledger) (lab : String) (n : Nat) :
    (Ledger.record l lab n).count lab = l.count lab + n := by
  induction l with
  | nil => simp [Ledger.record, Ledger.count]
  | cons kv rest ih =>
      obtain ⟨k, v⟩ := kv
      by_cases h : k = lab
      · subst h
        simp [Ledger.record, Ledger.count]
      · simp [Ledger.record, Ledger.count, h, ih]

theorem microsSum_nil : microsSum [] = 0 := rfl

theorem microsSum_cons (c : Classifier) (l : List Classifier) :
    microsSum (c :: l) = (c.numerosity : Int) + microsSum l := by
  simp [microsSum]

theorem microsSum_append (l₁ l₂ : List Classifier) :
    microsSum (l₁ ++ l₂) = microsSum l₁ + microsSum l₂ := by
  simp [microsSum]

theorem microsSum_nonneg (l : List Classifier) : 0 ≤ microsSum l := by
  induction l with
  | nil => simp [microsSum_nil]
  | cons c t ih =>
      rw [microsSum_cons]
      have : (0 : Int) ≤ (c.numerosity : Int) := Int.natCast_nonneg _
      omega

/-- Any member of a list with pairwise-distinct ids splits the list into a
prefix and suffix that avoid its id. -/
theorem exists_decomp (l : List Classifier) (m : Classifier) (hm : m ∈ l)
    (hnd : (l.map Classifier.id).Nodup) :
    ∃ pre post, l = pre ++ m :: post ∧
      (∀ x ∈ pre, x.id ≠ m.id) ∧ (∀ x ∈ post, x.id ≠ m.id) := by
  induction l with
  | nil => cases hm
  | cons a t ih =>
      simp only [List.map_cons, List.nodup_cons] at hnd
      rcases List.mem_cons.mp hm with h | h
      · subst h
        refine ⟨[], t, rfl, by simp, ?_⟩
        intro x hx hxe
        exact hnd.1 (hxe ▸ List.mem_map_of_mem Classifier.id hx)
      · obtain ⟨pre, post, hdec, hpre, hpost⟩ := ih h hnd.2
        refine ⟨a :: pre, post, by rw [hdec, List.cons_append], ?_, hpost⟩
        intro x hx
        rcases List.mem_cons.mp hx with rfl | hx'
        · intro he
          exact hnd.1 (he ▸ List.mem_map_of_mem Classifier.id h)
        · exact hpre x hx'

theorem find?_decomp {α : Type} (pred : α → Bool) (pre : List α) (m : α) (post : List α)
    (hpre : ∀ x ∈ pre, pred x = false) (hm : pred m = true) :
    (pre ++ m :: post).find? pred = some m := by
  induction pre with
  | nil => simp [List.find?_cons_of_pos, hm]
  | cons a t ih =>
      rw [List.cons_append, List.find?_cons_of_neg _ (by simp [hpre a (by simp)])]
      exact ih (fun x hx => hpre x (by simp [hx]))

theorem containsId_iff (p : Population) (cid : Nat) :
    p.containsId cid = true ↔ ∃ c ∈ p.members, c.id = cid := by
  simp [Population.containsId, List.any_eq_true]

theorem updateNum_append (l₁ l₂ : List Classifier) (cid n : Nat) :
    updateNum (l₁ ++ l₂) cid n = updateNum l₁ cid n ++ updateNum l₂ cid n := by
  simp [updateNum]

theorem updateNum_cons (a : Classifier) (l : List Classifier) (cid n : Nat) :
    updateNum (a :: l) cid n =
      (if a.id = cid then { a with numerosity := a.numerosity + n } else a) ::
        updateNum l cid n := rfl

theorem updateNum_no_match (l : List Classifier) (cid n : Nat)
    (h : ∀ x ∈ l, x.id ≠ cid) : updateNum l cid n = l := by
  induction l with
  | nil => rfl
  | cons a t ih =>
      rw [updateNum_cons, if_neg (h a (List.mem_cons_self a t)),
        ih (fun x hx => h x (List.mem_cons_of_mem a hx))]

theorem updateNum_decomp (pre post : List Classifier) (m : Classifier) (cid n : Nat)
    (hpre : ∀ x ∈ pre, x.id ≠ cid) (hpost : ∀ x ∈ post, x.id ≠ cid) (hm : m.id = cid) :
    updateNum (pre ++ m :: post) cid n =
      pre ++ { m with numerosity := m.numerosity + n } :: post := by
  rw [updateNum_append, updateNum_cons, if_pos hm, updateNum_no_match pre cid n hpre,
    updateNum_no_match post cid n hpost]

theorem decNum_cons (a : Classifier) (l : List Classifier) (cid : Nat) :
    decNum (a :: l) cid =
      (if a.id = cid then { a with numerosity := a.numerosity - 1 } else a) ::
        decNum l cid := rfl

theorem decNum_no_match (l : List Classifier) (cid : Nat)
    (h : ∀ x ∈ l, x.id ≠ cid) : decNum l cid = l := by
  induction l with
  | nil => rfl
  | cons a t ih =>
      rw [decNum_cons, if_neg (h a (List.mem_cons_self a t)),
        ih (fun x hx => h x (List.mem_cons_of_mem a hx))]

theorem decNum_decomp (pre post : List Classifier) (m : Classifier) (cid : Nat)
    (hpre : ∀ x ∈ pre, x.id ≠ cid) (hpost : ∀ x ∈ post, x.id ≠ cid) (hm : m.id = cid) :
    decNum (pre ++ m :: post) cid =
      pre ++ { m with numerosity := m.numerosity - 1 } :: post := by
  have : decNum (pre ++ m :: post) cid = decNum pre cid ++ decNum (m :: post) cid := by
    simp [decNum]
  rw [this, decNum_cons, if_pos hm, decNum_no_match pre cid hpre,
    decNum_no_match post cid hpost]

theorem removeFirstId_decomp (pre post : List Classifier) (m : Classifier) (cid : Nat)
    (hpre : ∀ x ∈ pre, x.id ≠ cid) (hm : m.id = cid) :
    removeFirstId (pre ++ m :: post) cid = pre ++ post := by
  induction pre with
  | nil => simp [removeFirstId, hm]
  | cons a t ih =>
      rw [List.cons_append, removeFirstId, if_neg (hpre a (List.mem_cons_self a t)),
        ih (fun x hx => hpre x (List.mem_cons_of_mem a hx)), List.cons_append]

theorem applyLabel_members (label : Option String) (b : Int) (p : Population) :
    (applyLabel label b p).members = p.members := by
  cases label <;> rfl

theorem applyLabel_numMicros (label : Option String) (b : Int) (p : Population) :
    (applyLabel label b p).numMicros = p.numMicros := by
  cases label <;> rfl

theorem applyLabel_maxMicros (label : Option String) (b : Int) (p : Population) :
    (applyLabel label b p).maxMicros = p.maxMicros := by
  cases label <;> rfl

theorem applyLabel_none (b : Int) (p : Population) : applyLabel none b p = p := rfl

theorem applyLabel_some_recorder (lab : String) (b : Int) (p : Population) :
    (applyLabel (some lab) b p).recorder =
      Ledger.record p.recorder lab (p.numMicros - b).natAbs := rfl

theorem verifyMembership_ok (p : Population) (cid : Nat) (h : p.containsId cid = true) :
    p.verifyMembership cid = .ok () := by
  simp [Population.verifyMembership, h]

theorem verifyMembership_err (p : Population) (cid : Nat) (h : p.containsId cid = false) :
    p.verifyMembership cid = .error .memberNotFound := by
  simp [Population.verifyMembership, h]

theorem recordOperation_ok (label : Option String)
    (body : Population → Except PopError Population) (p p₁ : Population)
    (h : body p = .ok p₁) :
    recordOperation label body p = .ok (applyLabel label p.numMicros p₁) := by
  unfold recordOperation
  rw [h]

theorem recordOperation_err (label : Option String)
    (body : Population → Except PopError Population) (p : Population) (e : PopError)
    (h : body p = .error e) :
    recordOperation label body p = .error e := by
  unfold recordOperation
  rw [h]

/-- Effect of a successful _atomic_add_new (through the recording wrapper). -/
theorem addNew_ok (label : Option String) (p : Population) (c : Classifier) :
    ∃ p', recordOperation label (atomicAddNewBody c) p = .ok p' ∧
      p'.members = p.members ++ [c] ∧
      p'.numMicros = p.numMicros + (c.numerosity : Int) ∧
      p'.maxMicros = p.maxMicros := by
  refine ⟨_, recordOperation_ok label _ p _ rfl, ?_, ?_, ?_⟩
  · rw [applyLabel_members]
    rfl
  · rw [applyLabel_numMicros]
    rfl
  · rw [applyLabel_maxMicros]
    rfl

/-- Effect of a successful _atomic_copy_existing (through the recording
wrapper), given that exactly one member carries the target identity. -/
theorem copyExisting_ok (label : Option String) (p : Population)
    (pre post : List Classifier) (m : Classifier) (cid n : Nat)
    (hdec : p.members = pre ++ m :: post)
    (hpre : ∀ x ∈ pre, x.id ≠ cid) (hpost : ∀ x ∈ post, x.id ≠ cid)
    (hm : m.id = cid) (hn : 1 ≤ n) :
    ∃ p', recordOperation label (atomicCopyExistingBody cid n) p = .ok p' ∧
      p'.members = pre ++ { m with numerosity := m.numerosity + n } :: post ∧
      p'.numMicros = p.numMicros + (n : Int) ∧
      p'.maxMicros = p.maxMicros ∧
      (label = none → p'.recorder = p.recorder) ∧
      (∀ lab, label = some lab → p'.recorder = Ledger.record p.recorder lab n) := by
  have hbody : atomicCopyExistingBody cid n p =
      .ok (Population.incNumMicros { p with members := updateNum p.members cid n } n) := by
    unfold atomicCopyExistingBody
    rw [if_pos hn]
  refine ⟨_, recordOperation_ok label _ p _ hbody, ?_, ?_, ?_, ?_, ?_⟩
  · rw [applyLabel_members]
    show updateNum p.members cid n = _
    rw [hdec]
    exact updateNum_decomp pre post m cid n hpre hpost hm
  · rw [applyLabel_numMicros]
    rfl
  · rw [applyLabel_maxMicros]
    rfl
  · intro h
    subst h
    rfl
  · intro lab h
    subst h
    rw [applyLabel_some_recorder]
    show Ledger.record p.recorder lab ((p.numMicros + (n : Int)) - p.numMicros).natAbs = _
    congr 1
    omega

/-- Effect of a successful _atomic_remove_whole (through the recording
wrapper), given a decomposition around the first member with the target
identity and a non-negative resulting micro count. -/
theorem removeWhole_ok (label : Option String) (p : Population)
    (pre post : List Classifier) (m : Classifier) (cid : Nat)
    (hdec : p.members = pre ++ m :: post)
    (hpre : ∀ x ∈ pre, x.id ≠ cid) (hm : m.id = cid)
    (hnn : 0 ≤ p.numMicros - (m.numerosity : Int)) :
    ∃ p', recordOperation label (atomicRemoveWholeBody cid) p = .ok p' ∧
      p'.members = pre ++ post ∧
      p'.numMicros = p.numMicros - (m.numerosity : Int) ∧
      p'.maxMicros = p.maxMicros ∧
      (label = none → p'.recorder = p.recorder) := by
  have hfind : p.members.find? (fun x => x.id == cid) = some m := by
    rw [hdec]
    exact find?_decomp _ pre m post (fun x hx => by simp [hpre x hx]) (by simp [hm])
  have hbody : atomicRemoveWholeBody cid p =
      .ok { p with members := removeFirstId p.members cid,
                   numMicros := p.numMicros - (m.numerosity : Int) } := by
    unfold atomicRemoveWholeBody
    rw [hfind]
    show Population.decNumMicros { p with members := removeFirstId p.members cid }
        (m.numerosity : Int) = _
    unfold Population.decNumMicros
    simp only [hnn, if_pos]
  refine ⟨_, recordOperation_ok label _ p _ hbody, ?_, ?_, ?_, ?_⟩
  · rw [applyLabel_members]
    show removeFirstId p.members cid = _
    rw [hdec]
    exact removeFirstId_decomp pre post m cid hpre hm
  · rw [applyLabel_numMicros]
  · rw [applyLabel_maxMicros]
  · intro h
    subst h
    rfl

/-- Full effect of Population.delete on a member of a well-formed
population: one micro-copy disappears, the change is recorded under the
"deletion" label, the member survives with decremented numerosity exactly
when its numerosity exceeded one, and the invariant is preserved. -/
theorem delete_found (p : Population) (c : Classifier) (hInv : Inv p)
    (hmem : c ∈ p.members) :
    ∃ pre post p',
      p.members = pre ++ c :: post ∧
      (∀ x ∈ pre, x.id ≠ c.id) ∧ (∀ x ∈ post, x.id ≠ c.id) ∧
      p.delete c.id = .ok p' ∧
      p'.numMicros = p.numMicros - 1 ∧
      p'.maxMicros = p.maxMicros ∧
      p'.recorder = Ledger.record p.recorder deletionLabel 1 ∧
      (1 < c.numerosity →
        p'.members = pre ++ { c with numerosity := c.numerosity - 1 } :: post) ∧
      (c.numerosity = 1 → p'.members = pre ++ post) ∧
      Inv p' := by
  obtain ⟨hsum, hpos, hnd⟩ := hInv
  obtain ⟨pre, post, hdec, hpre, hpost⟩ := exists_decomp p.members c hmem hnd
  have hcont : p.containsId c.id = true := (containsId_iff p c.id).mpr ⟨c, hmem, rfl⟩
  have hfind : p.members.find? (fun x => x.id == c.id) = some c := by
    rw [hdec]
    exact find?_decomp _ pre c post (fun x hx => by simp [hpre x hx]) (by simp)
  have hone : 1 ≤ c.numerosity := hpos c hmem
  have hsumd : p.numMicros = microsSum pre + (c.numerosity : Int) + microsSum post := by
    rw [hsum, hdec, microsSum_append, microsSum_cons]
    ring
  have hprene := microsSum_nonneg pre
  have hpostne := microsSum_nonneg post
  have hnn : 0 ≤ p.numMicros - 1 := by omega
  have hdel : p.delete c.id =
      recordOperation (some deletionLabel) (atomicRemoveSingleCopyBody c.id) p := by
    unfold Population.delete
    rw [verifyMembership_ok p c.id hcont]
  have hndpre : ∀ x ∈ pre, x.id ≠ c.id := hpre
  by_cases hgt : 1 < c.numerosity
  · -- numerosity > 1: decrement in place
    have hbody : atomicRemoveSingleCopyBody c.id p =
        .ok { p with members := decNum p.members c.id, numMicros := p.numMicros - 1 } := by
      unfold atomicRemoveSingleCopyBody
      rw [hfind]
      show Population.decNumMicros
          (if 1 < c.numerosity then { p with members := decNum p.members c.id }
           else { p with members := removeFirstId p.members c.id }) 1 = _
      rw [if_pos hgt]
      unfold Population.decNumMicros
      simp only [hnn, if_pos]
    refine ⟨pre, post, _, hdec, hpre, hpost,
      by rw [hdel, recordOperation_ok _ _ p _ hbody], ?_, ?_, ?_, ?_, ?_, ?_⟩
    · rw [applyLabel_numMicros]
    · rw [applyLabel_maxMicros]
    · rw [applyLabel_some_recorder]
      show Ledger.record p.recorder deletionLabel ((p.numMicros - 1) - p.numMicros).natAbs = _
      congr 1
      omega
    · intro _
      rw [applyLabel_members]
      show decNum p.members c.id = _
      rw [hdec]
      exact decNum_decomp pre post c c.id hpre hpost rfl
    · intro h1
      omega
    · refine ⟨?_, ?_, ?_⟩
      · rw [applyLabel_numMicros, applyLabel_members]
        show p.numMicros - 1 = microsSum (decNum p.members c.id)
        rw [hdec, decNum_decomp pre post c c.id hpre hpost rfl,
          microsSum_append, microsSum_cons]
        show p.numMicros - 1 = microsSum pre + (((c.numerosity - 1 : Nat) : Int) + microsSum post)
        omega
      · rw [applyLabel_members]
        show ∀ x ∈ decNum p.members c.id, 1 ≤ x.numerosity
        rw [hdec, decNum_decomp pre post c c.id hpre hpost rfl]
        intro x hx
        rcases List.mem_append.mp hx with hx' | hx'
        · exact hpos x (hdec ▸ List.mem_append.mpr (Or.inl hx'))
        · rcases List.mem_cons.mp hx' with rfl | hx''
          · show 1 ≤ c.numerosity - 1
            omega
          · exact hpos x (hdec ▸ List.mem_append.mpr (Or.inr (List.mem_cons_of_mem c hx'')))
      · rw [applyLabel_members]
        show ((decNum p.members c.id).map Classifier.id).Nodup
        rw [hdec, decNum_decomp pre post c c.id hpre hpost rfl]
        have heq : (pre ++ { c with numerosity := c.numerosity - 1 } :: post).map Classifier.id =
            (pre ++ c :: post).map Classifier.id := by
          simp [List.map_append]
        rw [heq, ← hdec]
        exact hnd
  · -- numerosity = 1: remove the whole macro-classifier
    have heq1 : c.numerosity = 1 := by omega
    have hbody : atomicRemoveSingleCopyBody c.id p =
        .ok { p with members := removeFirstId p.members c.id,
                     numMicros := p.numMicros - 1 } := by
      unfold atomicRemoveSingleCopyBody
      rw [hfind]
      show Population.decNumMicros
          (if 1 < c.numerosity then { p with members := decNum p.members c.id }
           else { p with members := removeFirstId p.members c.id }) 1 = _
      rw [if_neg hgt]
      unfold Population.decNumMicros
      simp only [hnn, if_pos]
    refine ⟨pre, post, _, hdec, hpre, hpost,
      by rw [hdel, recordOperation_ok _ _ p _ hbody], ?_, ?_, ?_, ?_, ?_, ?_⟩
    · rw [applyLabel_numMicros]
    · rw [applyLabel_maxMicros]
    · rw [applyLabel_some_recorder]
      show Ledger.record p.recorder deletionLabel ((p.numMicros - 1) - p.numMicros).natAbs = _
      congr 1
      omega
    · intro h1
      omega
    · intro _
      rw [applyLabel_members]
      show removeFirstId p.members c.id = _
      rw [hdec]
      exact removeFirstId_decomp pre post c c.id hpre rfl
    · have hmem' : removeFirstId p.members c.id = pre ++ post := by
        rw [hdec]
        exact removeFirstId_decomp pre post c c.id hpre rfl
      refine ⟨?_, ?_, ?_⟩
      · rw [applyLabel_numMicros, applyLabel_members]
        show p.numMicros - 1 = microsSum (removeFirstId p.members c.id)
        rw [hmem', microsSum_append]
        omega
      · rw [applyLabel_members]
        show ∀ x ∈ removeFirstId p.members c.id, 1 ≤ x.numerosity
        rw [hmem']
        intro x hx
        rcases List.mem_append.mp hx with hx' | hx'
        · exact hpos x (hdec ▸ List.mem_append.mpr (Or.inl hx'))
        · exact hpos x (hdec ▸ List.mem_append.mpr (Or.inr (List.mem_cons_of_mem c hx')))
      · rw [applyLabel_members]
        show ((removeFirstId p.members c.id).map Classifier.id).Nodup
        rw [hmem']
        have hsub : List.Sublist ((pre ++ post).map Classifier.id)
            ((pre ++ c :: post).map Classifier.id) := by
          apply List.Sublist.map
          exact List.Sublist.append (List.Sublist.refl pre) (List.sublist_cons_self c post)
        exact hsub.nodup (hdec ▸ hnd)

/-- In a list with pairwise-distinct ids, the parts surrounding a member
avoid its id. -/
theorem nodup_sides (pre post : List Classifier) (m : Classifier)
    (hnd : ((pre ++ m :: post).map Classifier.id).Nodup) :
    (∀ x ∈ pre, x.id ≠ m.id) ∧ (∀ x ∈ post, x.id ≠ m.id) := by
  rw [List.map_append, List.map_cons, List.nodup_append] at hnd
  obtain ⟨h1, h2, h3⟩ := hnd
  refine ⟨?_, ?_⟩
  · intro x hx he
    exact h3 (List.mem_map_of_mem Classifier.id hx) (he ▸ List.mem_cons_self m.id _)
  · intro x hx he
    exact (List.nodup_cons.mp h2).1 (he ▸ List.mem_map_of_mem Classifier.id hx)

/-- Effect of a successful membership-guarded whole removal on a
well-formed population, with the invariant preserved. -/
theorem removeWhole_inv (label : Option String) (p : Population) (c : Classifier)
    (hInv : Inv p) (hmem : c ∈ p.members) :
    ∃ pre post p', p.members = pre ++ c :: post ∧
      (∀ x ∈ pre, x.id ≠ c.id) ∧ (∀ x ∈ post, x.id ≠ c.id) ∧
      recordOperation label (atomicRemoveWholeBody c.id) p = .ok p' ∧
      p'.members = pre ++ post ∧
      p'.numMicros = p.numMicros - (c.numerosity : Int) ∧
      p'.maxMicros = p.maxMicros ∧
      (label = none → p'.recorder = p.recorder) ∧
      Inv p' := by
  obtain ⟨hsum, hpos, hnd⟩ := hInv
  obtain ⟨pre, post, hdec, hpre, hpost⟩ := exists_decomp p.members c hmem hnd
  have hsumd : p.numMicros = microsSum pre + (c.numerosity : Int) + microsSum post := by
    rw [hsum, hdec, microsSum_append, microsSum_cons]
    ring
  have hprene := microsSum_nonneg pre
  have hpostne := microsSum_nonneg post
  have hnn : 0 ≤ p.numMicros - (c.numerosity : Int) := by omega
  obtain ⟨p', heq, hmembers, hnum, hmax, hrec⟩ :=
    removeWhole_ok label p pre post c c.id hdec hpre rfl hnn
  refine ⟨pre, post, p', hdec, hpre, hpost, heq, hmembers, hnum, hmax, hrec, ?_, ?_, ?_⟩
  · rw [hnum, hmembers, microsSum_append]
    omega
  · rw [hmembers]
    intro x hx
    rcases List.mem_append.mp hx with hx' | hx'
    · exact hpos x (hdec ▸ List.mem_append.mpr (Or.inl hx'))
    · exact hpos x (hdec ▸ List.mem_append.mpr (Or.inr (List.mem_cons_of_mem c hx')))
  · rw [hmembers]
    have hsub : List.Sublist ((pre ++ post).map Classifier.id)
        ((pre ++ c :: post).map Classifier.id) := by
      apply List.Sublist.map
      exact List.Sublist.append (List.Sublist.refl pre) (List.sublist_cons_self c post)
    exact hsub.nodup (hdec ▸ hnd)

/-- Effect of Population.add: the classifier is appended and the invariant
is preserved when the classifier is a fresh object with positive
numerosity. -/
theorem add_inv (p : Population) (c : Classifier) (label : Option String)
    (hInv : Inv p) (hn : 1 ≤ c.numerosity) (hfresh : ∀ x ∈ p.members, x.id ≠ c.id) :
    ∃ p', p.add c label = .ok p' ∧
      p'.members = p.members ++ [c] ∧
      p'.numMicros = p.numMicros + (c.numerosity : Int) ∧
      p'.maxMicros = p.maxMicros ∧
      Inv p' := by
  obtain ⟨hsum, hpos, hnd⟩ := hInv
  obtain ⟨p', heq, hmembers, hnum, hmax⟩ := addNew_ok label p c
  refine ⟨p', heq, hmembers, hnum, hmax, ?_, ?_, ?_⟩
  · rw [hnum, hmembers, microsSum_append, microsSum_cons, microsSum_nil, hsum]
    ring
  · rw [hmembers]
    intro x hx
    rcases List.mem_append.mp hx with hx' | hx'
    · exact hpos x hx'
    · rw [List.mem_singleton.mp hx']
      exact hn
  · rw [hmembers, List.map_append, List.nodup_append]
    refine ⟨hnd, by simp, ?_⟩
    intro y hy
    obtain ⟨x, hx, rfl⟩ := List.mem_map.mp hy
    simp only [List.map_cons, List.map_nil, List.mem_cons, List.not_mem_nil, or_false]
    exact hfresh x hx

/-- When no member has an equal rule, insert behaves exactly like add. -/
theorem insert_of_not_found (p : Population) (c : Classifier) (label : Option String)
    (h : p.members.find? (fun x => x.rule == c.rule) = none) :
    p.insert c label = p.add c label := by
  unfold Population.insert Population.add
  rw [h]

/-- Absorption effect of Population.insert: when the scan finds a member
with an equal rule, exactly that member's numerosity grows by the inserted
numerosity, num_micros grows equally, and the increase is recorded under
the "absorption" label. -/
theorem insert_absorb_found (p : Population) (c m : Classifier) (label : Option String)
    (hfind : p.members.find? (fun x => x.rule == c.rule) = some m)
    (hInv : Inv p) (hn : 1 ≤ c.numerosity) :
    ∃ pre post p', p.members = pre ++ m :: post ∧
      (∀ x ∈ pre, x.id ≠ m.id) ∧ (∀ x ∈ post, x.id ≠ m.id) ∧
      p.insert c label = .ok p' ∧
      p'.members = pre ++ { m with numerosity := m.numerosity + c.numerosity } :: post ∧
      p'.numMicros = p.numMicros + (c.numerosity : Int) ∧
      p'.maxMicros = p.maxMicros ∧
      p'.recorder = Ledger.record p.recorder absorptionLabel c.numerosity ∧
      Inv p' := by
  obtain ⟨hsum, hpos, hnd⟩ := hInv
  have hmem : m ∈ p.members := List.mem_of_find?_eq_some hfind
  obtain ⟨pre, post, hdec, hpre, hpost⟩ := exists_decomp p.members m hmem hnd
  obtain ⟨p', heq, hmembers, hnum, hmax, _, hrec⟩ :=
    copyExisting_ok (some absorptionLabel) p pre post m m.id c.numerosity hdec hpre hpost rfl hn
  have hins : p.insert c label = .ok p' := by
    unfold Population.insert
    rw [hfind]
    exact heq
  refine ⟨pre, post, p', hdec, hpre, hpost, hins, hmembers, hnum, hmax,
    hrec absorptionLabel rfl, ?_, ?_, ?_⟩
  · rw [hnum, hmembers, microsSum_append, microsSum_cons]
    have hsumd : p.numMicros = microsSum pre + (m.numerosity : Int) + microsSum post := by
      rw [hsum, hdec, microsSum_append, microsSum_cons]
      ring
    show p.numMicros + (c.numerosity : Int) =
      microsSum pre + (((m.numerosity + c.numerosity : Nat) : Int) + microsSum post)
    omega
  · rw [hmembers]
    intro x hx
    rcases List.mem_append.mp hx with hx' | hx'
    · exact hpos x (hdec ▸ List.mem_append.mpr (Or.inl hx'))
    · rcases List.mem_cons.mp hx' with rfl | hx''
      · show 1 ≤ m.numerosity + c.numerosity
        omega
      · exact hpos x (hdec ▸ List.mem_append.mpr (Or.inr (List.mem_cons_of_mem m hx'')))
  · rw [hmembers]
    have heqids : (pre ++ { m with numerosity := m.numerosity + c.numerosity } :: post).map
        Classifier.id = (pre ++ m :: post).map Classifier.id := by
      simp [List.map_append]
    rw [heqids, ← hdec]
    exact hnd

/-- Effect of Population.replace on two distinct members of a well-formed
population: the replacee vanishes, the replacer absorbs its numerosity,
num_micros is unchanged, and the invariant is preserved. -/
theorem replace_found (p : Population) (a b : Classifier) (label : Option String)
    (hInv : Inv p) (hmema : a ∈ p.members) (hmemb : b ∈ p.members)
    (hab : a.id ≠ b.id) :
    ∃ p', p.replace a.id b.id label = .ok p' ∧
      p'.numMicros = p.numMicros ∧
      p'.maxMicros = p.maxMicros ∧
      (∀ x ∈ p'.members, x.id ≠ a.id) ∧
      p'.members.find? (fun x => x.id == b.id) =
        some { b with numerosity := b.numerosity + a.numerosity } ∧
      Inv p' := by
  have hconta : p.containsId a.id = true := (containsId_iff p a.id).mpr ⟨a, hmema, rfl⟩
  have hcontb : p.containsId b.id = true := (containsId_iff p b.id).mpr ⟨b, hmemb, rfl⟩
  have hposa : 1 ≤ a.numerosity := hInv.2.1 a hmema
  obtain ⟨pre, post, p1, hdec, hpre, hpost, hrem, hmem1, hnum1, hmax1, hrec1, hInv1⟩ :=
    removeWhole_inv none p a hInv hmema
  have hfinda : p.members.find? (fun x => x.id == a.id) = some a := by
    rw [hdec]
    exact find?_decomp _ pre a post (fun x hx => by simp [hpre x hx]) (by simp)
  have hmemb1 : b ∈ p1.members := by
    rw [hmem1]
    have hb : b ∈ pre ++ a :: post := hdec ▸ hmemb
    rcases List.mem_append.mp hb with h | h
    · exact List.mem_append.mpr (Or.inl h)
    · rcases List.mem_cons.mp h with h' | h'
      · exact absurd (congrArg Classifier.id h').symm hab
      · exact List.mem_append.mpr (Or.inr h')
  obtain ⟨pre2, post2, hdec2, hpre2, hpost2⟩ :=
    exists_decomp p1.members b hmemb1 hInv1.2.2
  obtain ⟨p2, heq2, hmem2, hnum2, hmax2, _, _⟩ :=
    copyExisting_ok label p1 pre2 post2 b b.id a.numerosity hdec2 hpre2 hpost2 rfl hposa
  have hrepl : p.replace a.id b.id label = .ok p2 := by
    unfold Population.replace
    rw [verifyMembership_ok p a.id hconta, verifyMembership_ok p b.id hcontb, hfinda, hrem]
    exact heq2
  have hb' : ∀ x ∈ p1.members, x.id ≠ a.id := by
    intro x hx
    rw [hmem1] at hx
    rcases List.mem_append.mp hx with h | h
    · exact hpre x h
    · exact hpost x h
  refine ⟨p2, hrepl, ?_, ?_, ?_, ?_, ?_, ?_, ?_⟩
  · rw [hnum2, hnum1]
    omega
  · rw [hmax2, hmax1]
  · rw [hmem2]
    intro x hx
    rcases List.mem_append.mp hx with h | h
    · exact hb' x (hdec2 ▸ List.mem_append.mpr (Or.inl h))
    · rcases List.mem_cons.mp h with rfl | h'
      · show b.id ≠ a.id
        exact fun he => hab he.symm
      · exact hb' x (hdec2 ▸ List.mem_append.mpr (Or.inr (List.mem_cons_of_mem b h')))
  · rw [hmem2]
    exact find?_decomp _ pre2 _ post2 (fun x hx => by simp [hpre2 x hx]) (by simp)
  · rw [hnum2, hmem2, microsSum_append, microsSum_cons]
    have hsumd1 : p1.numMicros = microsSum pre2 + (b.numerosity : Int) + microsSum post2 := by
      rw [hInv1.1, hdec2, microsSum_append, microsSum_cons]
      ring
    show p1.numMicros + (a.numerosity : Int) =
      microsSum pre2 + (((b.numerosity + a.numerosity : Nat) : Int) + microsSum post2)
    omega
  · rw [hmem2]
    intro x hx
    rcases List.mem_append.mp hx with h | h
    · exact hInv1.2.1 x (hdec2 ▸ List.mem_append.mpr (Or.inl h))
    · rcases List.mem_cons.mp h with rfl | h'
      · show 1 ≤ b.numerosity + a.numerosity
        omega
      · exact hInv1.2.1 x (hdec2 ▸ List.mem_append.mpr (Or.inr (List.mem_cons_of_mem b h')))
  · rw [hmem2]
    have heqids : (pre2 ++ { b with numerosity := b.numerosity + a.numerosity } :: post2).map
        Classifier.id = (pre2 ++ b :: post2).map Classifier.id := by
      simp [List.map_append]
    rw [heqids, ← hdec2]
    exact hInv1.2.2

/-- A successful _atomic_copy_existing on a member preserves the invariant. -/
theorem copyExisting_inv (label : Option String) (p : Population) (m : Classifier)
    (cid n : Nat) (hInv : Inv p) (hmem : m ∈ p.members) (hid : m.id = cid)
    (hn : 1 ≤ n) :
    ∃ p', recordOperation label (atomicCopyExistingBody cid n) p = .ok p' ∧
      p'.numMicros = p.numMicros + (n : Int) ∧
      p'.maxMicros = p.maxMicros ∧
      Inv p' := by
  obtain ⟨hsum, hpos, hnd⟩ := hInv
  obtain ⟨pre, post, hdec, hpre, hpost⟩ := exists_decomp p.members m hmem hnd
  obtain ⟨p', heq, hmembers, hnum, hmax, _, _⟩ :=
    copyExisting_ok label p pre post m cid n hdec
      (fun x hx => hid ▸ hpre x hx) (fun x hx => hid ▸ hpost x hx) hid hn
  refine ⟨p', heq, hnum, hmax, ?_, ?_, ?_⟩
  · rw [hnum, hmembers, microsSum_append, microsSum_cons]
    have hsumd : p.numMicros = microsSum pre + (m.numerosity : Int) + microsSum post := by
      rw [hsum, hdec, microsSum_append, microsSum_cons]
      ring
    show p.numMicros + (n : Int) =
      microsSum pre + (((m.numerosity + n : Nat) : Int) + microsSum post)
    omega
  · rw [hmembers]
    intro x hx
    rcases List.mem_append.mp hx with hx' | hx'
    · exact hpos x (hdec ▸ List.mem_append.mpr (Or.inl hx'))
    · rcases List.mem_cons.mp hx' with rfl | hx''
      · show 1 ≤ m.numerosity + n
        omega
      · exact hpos x (hdec ▸ List.mem_append.mpr (Or.inr (List.mem_cons_of_mem m hx'')))
  · rw [hmembers]
    have heqids : (pre ++ { m with numerosity := m.numerosity + n } :: post).map
        Classifier.id = (pre ++ m :: post).map Classifier.id := by
      simp [List.map_append]
    rw [heqids, ← hdec]
    exact hnd

/-- Every operation whose precondition holds succeeds on a well-formed
population and preserves the invariant. -/
theorem applyOp_ok (p : Population) (op : Op) (hInv : Inv p) (hwf : WfOp p op) :
    ∃ p', applyOp p op = .ok p' ∧ Inv p' := by
  cases op with
  | add c label =>
      obtain ⟨hn, hfresh⟩ := hwf
      obtain ⟨p', heq, _, _, _, hInv'⟩ := add_inv p c label hInv hn hfresh
      exact ⟨p', heq, hInv'⟩
  | insert c label =>
      obtain ⟨hn, hfresh⟩ := hwf
      cases hf : p.members.find? (fun x => x.rule == c.rule) with
      | some m =>
          obtain ⟨_, _, p', _, _, _, hins, _, _, _, _, hInv'⟩ :=
            insert_absorb_found p c m label hf hInv hn
          exact ⟨p', hins, hInv'⟩
      | none =>
          obtain ⟨p', heq, _, _, _, hInv'⟩ := add_inv p c label hInv hn hfresh
          refine ⟨p', ?_, hInv'⟩
          show p.insert c label = .ok p'
          rw [insert_of_not_found p c label hf]
          exact heq
  | duplicate cid n label =>
      obtain ⟨hcont, hn⟩ := hwf
      obtain ⟨m, hmem, hid⟩ := (containsId_iff p cid).mp hcont
      obtain ⟨p', heq, _, _, hInv'⟩ := copyExisting_inv label p m cid n hInv hmem hid hn
      refine ⟨p', ?_, hInv'⟩
      show p.duplicate cid n label = .ok p'
      unfold Population.duplicate
      rw [verifyMembership_ok p cid hcont]
      exact heq
  | replace a b label =>
      obtain ⟨hconta, hcontb, hab⟩ := hwf
      obtain ⟨ma, hmema, hida⟩ := (containsId_iff p a).mp hconta
      obtain ⟨mb, hmemb, hidb⟩ := (containsId_iff p b).mp hcontb
      have hids : ma.id ≠ mb.id := by
        rw [hida, hidb]
        exact hab
      obtain ⟨p', heq, _, _, _, _, hInv'⟩ := replace_found p ma mb label hInv hmema hmemb hids
      refine ⟨p', ?_, hInv'⟩
      show p.replace a b label = .ok p'
      rw [← hida, ← hidb]
      exact heq
  | delete cid =>
      obtain ⟨c, hmem, hid⟩ := (containsId_iff p cid).mp hwf
      obtain ⟨_, _, p', _, _, _, hdel, _, _, _, _, _, hInv'⟩ := delete_found p c hInv hmem
      refine ⟨p', ?_, hInv'⟩
      show p.delete cid = .ok p'
      rw [← hid]
      exact hdel
  | remove cid label =>
      obtain ⟨c, hmem, hid⟩ := (containsId_iff p cid).mp hwf
      obtain ⟨_, _, p', _, _, _, hrem, _, _, _, _, hInv'⟩ :=
        removeWhole_inv label p c hInv hmem
      refine ⟨p', ?_, hInv'⟩
      show p.remove cid label = .ok p'
      unfold Population.remove
      rw [verifyMembership_ok p cid hwf, ← hid]
      exact hrem

/-- A freshly constructed population satisfies the invariant. -/
theorem mkPopulation_inv (q : ℚ) (p : Population) (h : mkPopulation q = .ok p) :
    Inv p ∧ p.numMicros = 0 ∧ p.members = [] := by
  unfold mkPopulation validateAndReturnMaxMicros at h
  split at h
  · cases h
  · cases h
    exact ⟨⟨rfl, by simp, by simp⟩, rfl, rfl⟩

/-- Every reachable population satisfies the bookkeeping invariant. -/
theorem reachable_inv (p : Population) (h : Reachable p) : Inv p := by
  induction h with
  | init q p hp => exact (mkPopulation_inv q p hp).1
  | step p op p' hreach hwf heq ih =>
      obtain ⟨p'', heq', hInv'⟩ := applyOp_ok p op ih hwf
      rw [heq] at heq'
      cases heq'
      exact hInv'

/-- C1 (amended): for every sequence of add/insert/duplicate/replace/delete/
remove operations whose preconditions hold — where classifiers handed to
add/insert are fresh objects with positive numerosity and replace receives
two distinct members — starting from a freshly constructed Population,
num_micros equals the sum of numerosity over the current members at every
point between operations. -/
theorem population_micros_invariant (p : Population) (h : Reachable p) :
    p.numMicros = microsSum p.members :=
  (reachable_inv p h).1

theorem population_micros_invariant_witness :
    (⟨[⟨0, 0, 1, 1, 0, 1⟩], 1, 5, Ledger.empty⟩ : Population).numMicros =
      microsSum (⟨[⟨0, 0, 1, 1, 0, 1⟩], 1, 5, Ledger.empty⟩ : Population).members :=
  population_micros_invariant _
    (Reachable.step ⟨[], 0, 5, Ledger.empty⟩ (Op.add ⟨0, 0, 1, 1, 0, 1⟩ none)
      ⟨[⟨0, 0, 1, 1, 0, 1⟩], 1, 5, Ledger.empty⟩
      (Reachable.init 5 ⟨[], 0, 5, Ledger.empty⟩ (by decide))
      (by decide) (by decide))

/-- C1 counterexample: the claim as stated admits replace(a, a) — both
arguments are members — after which the cached num_micros (1) no longer
equals the numerosity sum of the members ([] sums to 0). -/
theorem replace_self_breaks_invariant :
    mkPopulation 5 = .ok ⟨[], 0, 5, Ledger.empty⟩ ∧
    applyOp ⟨[], 0, 5, Ledger.empty⟩ (Op.add ⟨0, 0, 1, 1, 0, 1⟩ none) =
      .ok ⟨[⟨0, 0, 1, 1, 0, 1⟩], 1, 5, Ledger.empty⟩ ∧
    (⟨[⟨0, 0, 1, 1, 0, 1⟩], 1, 5, Ledger.empty⟩ : Population).containsId 0 = true ∧
    applyOp ⟨[⟨0, 0, 1, 1, 0, 1⟩], 1, 5, Ledger.empty⟩ (Op.replace 0 0 none) =
      .ok ⟨[], 1, 5, Ledger.empty⟩ ∧
    ¬((⟨[], 1, 5, Ledger.empty⟩ : Population).numMicros =
        microsSum (⟨[], 1, 5, Ledger.empty⟩ : Population).members) := by
  decide

/-- C10: when several members carry the inserted classifier's rule, insert
absorbs into the first such member in insertion order, leaving every other
member untouched. -/
theorem insert_absorbs_first_match (p : Population) (c : Classifier)
    (label : Option String) (pre : List Classifier) (m : Classifier)
    (post : List Classifier)
    (hdec : p.members = pre ++ m :: post)
    (hpre : ∀ x ∈ pre, x.rule ≠ c.rule) (hm : m.rule = c.rule)
    (hnd : (p.members.map Classifier.id).Nodup) (hn : 1 ≤ c.numerosity) :
    ∃ p', p.insert c label = .ok p' ∧
      p'.members = pre ++ { m with numerosity := m.numerosity + c.numerosity } :: post := by
  have hfind : p.members.find? (fun x => x.rule == c.rule) = some m := by
    rw [hdec]
    exact find?_decomp _ pre m post (fun x hx => by simp [hpre x hx]) (by simp [hm])
  have hsides := nodup_sides pre post m (hdec ▸ hnd)
  obtain ⟨p', heq, hmem, _, _, _, _⟩ :=
    copyExisting_ok (some absorptionLabel) p pre post m m.id c.numerosity hdec
      hsides.1 hsides.2 rfl hn
  refine ⟨p', ?_, hmem⟩
  unfold Population.insert
  rw [hfind]
  exact heq

theorem insert_absorbs_first_match_witness :
    ∃ p', Population.insert ⟨[⟨0, 7, 2, 1, 0, 1⟩, ⟨1, 7, 3, 1, 0, 1⟩], 5, 9, Ledger.empty⟩
        ⟨2, 7, 4, 1, 0, 1⟩ none = .ok p' ∧
      p'.members = [] ++ { (⟨0, 7, 2, 1, 0, 1⟩ : Classifier) with numerosity := 2 + 4 } ::
        [⟨1, 7, 3, 1, 0, 1⟩] :=
  insert_absorbs_first_match ⟨[⟨0, 7, 2, 1, 0, 1⟩, ⟨1, 7, 3, 1, 0, 1⟩], 5, 9, Ledger.empty⟩
    ⟨2, 7, 4, 1, 0, 1⟩ none [] ⟨0, 7, 2, 1, 0, 1⟩ [⟨1, 7, 3, 1, 0, 1⟩]
    (by decide) (by decide) (by decide) (by decide) (by decide)

/-- C3: inserting a classifier whose rule matches an existing member leaves
macro_count unchanged, adds the inserted numerosity to that member and to
num_micros, and records the change under the fixed "absorption" label;
inserting a classifier with a novel rule behaves exactly like add,
increasing macro_count by one and num_micros by the inserted numerosity. -/
theorem insert_absorption_spec (p : Population) (c : Classifier)
    (label : Option String) (hInv : Inv p) (hn : 1 ≤ c.numerosity) :
    (∀ m, p.members.find? (fun x => x.rule == c.rule) = some m →
      ∃ pre post p', p.members = pre ++ m :: post ∧
        p.insert c label = .ok p' ∧
        p'.members = pre ++ { m with numerosity := m.numerosity + c.numerosity } :: post ∧
        p'.macroCount = p.macroCount ∧
        p'.numMicros = p.numMicros + (c.numerosity : Int) ∧
        Ledger.count p'.recorder absorptionLabel =
          Ledger.count p.recorder absorptionLabel + c.numerosity) ∧
    (p.members.find? (fun x => x.rule == c.rule) = none →
      p.insert c label = p.add c label ∧
      ∃ p', p.add c label = .ok p' ∧
        p'.macroCount = p.macroCount + 1 ∧
        p'.numMicros = p.numMicros + (c.numerosity : Int)) := by
  constructor
  · intro m hfind
    obtain ⟨pre, post, p', hdec, _, _, hins, hmembers, hnum, _, hrec, _⟩ :=
      insert_absorb_found p c m label hfind hInv hn
    refine ⟨pre, post, p', hdec, hins, hmembers, ?_, hnum, ?_⟩
    · unfold Population.macroCount
      rw [hmembers, hdec]
      simp
    · rw [hrec, Ledger.count_record]
  · intro hfind
    refine ⟨insert_of_not_found p c label hfind, ?_⟩
    obtain ⟨p', heq, hmembers, hnum, hmax⟩ := addNew_ok label p c
    refine ⟨p', heq, ?_, hnum⟩
    unfold Population.macroCount
    rw [hmembers]
    simp

theorem insert_absorption_spec_witness :
    (∀ m, ((⟨[⟨0, 7, 2, 1, 0, 1⟩], 2, 9, Ledger.empty⟩ : Population).members.find?
        (fun x => x.rule == (7 : Nat))) = some m →
      ∃ pre post p',
        Population.members ⟨[⟨0, 7, 2, 1, 0, 1⟩], 2, 9, Ledger.empty⟩ = pre ++ m :: post ∧
        Population.insert ⟨[⟨0, 7, 2, 1, 0, 1⟩], 2, 9, Ledger.empty⟩ ⟨1, 7, 3, 1, 0, 1⟩ none =
          .ok p' ∧
        p'.members = pre ++ { m with numerosity := m.numerosity + 3 } :: post ∧
        p'.macroCount = Population.macroCount ⟨[⟨0, 7, 2, 1, 0, 1⟩], 2, 9, Ledger.empty⟩ ∧
        p'.numMicros = Population.numMicros ⟨[⟨0, 7, 2, 1, 0, 1⟩], 2, 9, Ledger.empty⟩ + (3 : Int) ∧
        Ledger.count p'.recorder absorptionLabel =
          Ledger.count (Population.recorder ⟨[⟨0, 7, 2, 1, 0, 1⟩], 2, 9, Ledger.empty⟩)
            absorptionLabel + 3) ∧
    (((⟨[⟨0, 7, 2, 1, 0, 1⟩], 2, 9, Ledger.empty⟩ : Population).members.find?
        (fun x => x.rule == (7 : Nat))) = none →
      Population.insert ⟨[⟨0, 7, 2, 1, 0, 1⟩], 2, 9, Ledger.empty⟩ ⟨1, 7, 3, 1, 0, 1⟩ none =
        Population.add ⟨[⟨0, 7, 2, 1, 0, 1⟩], 2, 9, Ledger.empty⟩ ⟨1, 7, 3, 1, 0, 1⟩ none ∧
      ∃ p', Population.add ⟨[⟨0, 7, 2, 1, 0, 1⟩], 2, 9, Ledger.empty⟩ ⟨1, 7, 3, 1, 0, 1⟩ none =
          .ok p' ∧
        p'.macroCount = Population.macroCount ⟨[⟨0, 7, 2, 1, 0, 1⟩], 2, 9, Ledger.empty⟩ + 1 ∧
        p'.numMicros = Population.numMicros ⟨[⟨0, 7, 2, 1, 0, 1⟩], 2, 9, Ledger.empty⟩ + (3 : Int)) :=
  insert_absorption_spec ⟨[⟨0, 7, 2, 1, 0, 1⟩], 2, 9, Ledger.empty⟩ ⟨1, 7, 3, 1, 0, 1⟩ none
    (by decide) (by decide)

/-- C4: replacing member a by a distinct member b leaves num_micros
unchanged, removes a from the population, and adds exactly a's pre-replace
numerosity to b's numerosity. -/
theorem replace_preserves_micros (p : Population) (a b : Classifier)
    (label : Option String) (hInv : Inv p) (hmema : a ∈ p.members)
    (hmemb : b ∈ p.members) (hab : a.id ≠ b.id) :
    ∃ p', p.replace a.id b.id label = .ok p' ∧
      p'.numMicros = p.numMicros ∧
      (∀ x ∈ p'.members, x.id ≠ a.id) ∧
      p'.members.find? (fun x => x.id == b.id) =
        some { b with numerosity := b.numerosity + a.numerosity } := by
  obtain ⟨p', heq, hnum, _, habsent, hfind, _⟩ :=
    replace_found p a b label hInv hmema hmemb hab
  exact ⟨p', heq, hnum, habsent, hfind⟩

theorem replace_preserves_micros_witness :
    ∃ p', Population.replace ⟨[⟨0, 0, 2, 1, 0, 1⟩, ⟨1, 1, 3, 1, 0, 1⟩], 5, 9, Ledger.empty⟩
        0 1 none = .ok p' ∧
      p'.numMicros = Population.numMicros
        ⟨[⟨0, 0, 2, 1, 0, 1⟩, ⟨1, 1, 3, 1, 0, 1⟩], 5, 9, Ledger.empty⟩ ∧
      (∀ x ∈ p'.members, x.id ≠ (0 : Nat)) ∧
      p'.members.find? (fun x => x.id == (1 : Nat)) =
        some { (⟨1, 1, 3, 1, 0, 1⟩ : Classifier) with numerosity := 3 + 2 } :=
  replace_preserves_micros ⟨[⟨0, 0, 2, 1, 0, 1⟩, ⟨1, 1, 3, 1, 0, 1⟩], 5, 9, Ledger.empty⟩
    ⟨0, 0, 2, 1, 0, 1⟩ ⟨1, 1, 3, 1, 0, 1⟩ none (by decide) (by decide) (by decide) (by decide)

/-- C5: deleting a member removes exactly one micro-copy: with numerosity
above one the member's numerosity is decremented and macro_count is
unchanged; with numerosity one the member disappears and macro_count drops
by one; in both cases num_micros drops by one and the change is recorded
under the fixed "deletion" label. -/
theorem delete_single_copy_spec (p : Population) (c : Classifier)
    (hInv : Inv p) (hmem : c ∈ p.members) :
    ∃ pre post p', p.members = pre ++ c :: post ∧
      p.delete c.id = .ok p' ∧
      p'.numMicros = p.numMicros - 1 ∧
      Ledger.count p'.recorder deletionLabel = Ledger.count p.recorder deletionLabel + 1 ∧
      (1 < c.numerosity →
        p'.members = pre ++ { c with numerosity := c.numerosity - 1 } :: post ∧
        p'.macroCount = p.macroCount) ∧
      (c.numerosity = 1 →
        p'.members = pre ++ post ∧
        p'.macroCount + 1 = p.macroCount ∧
        ∀ x ∈ p'.members, x.id ≠ c.id) := by
  obtain ⟨pre, post, p', hdec, hpre, hpost, hdel, hnum, _, hrec, hbig, hsmall, _⟩ :=
    delete_found p c hInv hmem
  refine ⟨pre, post, p', hdec, hdel, hnum, ?_, ?_, ?_⟩
  · rw [hrec, Ledger.count_record]
  · intro hgt
    refine ⟨hbig hgt, ?_⟩
    unfold Population.macroCount
    rw [hbig hgt, hdec]
    simp
  · intro hone
    refine ⟨hsmall hone, ?_, ?_⟩
    · unfold Population.macroCount
      rw [hsmall hone, hdec]
      simp
      omega
    · rw [hsmall hone]
      intro x hx
      rcases List.mem_append.mp hx with h | h
      · exact hpre x h
      · exact hpost x h

theorem delete_single_copy_spec_witness :
    ∃ pre post p',
      Population.members ⟨[⟨0, 0, 2, 1, 0, 1⟩], 2, 9, Ledger.empty⟩ =
        pre ++ (⟨0, 0, 2, 1, 0, 1⟩ : Classifier) :: post ∧
      Population.delete ⟨[⟨0, 0, 2, 1, 0, 1⟩], 2, 9, Ledger.empty⟩ 0 = .ok p' ∧
      p'.numMicros = Population.numMicros ⟨[⟨0, 0, 2, 1, 0, 1⟩], 2, 9, Ledger.empty⟩ - 1 ∧
      Ledger.count p'.recorder deletionLabel =
        Ledger.count (Population.recorder ⟨[⟨0, 0, 2, 1, 0, 1⟩], 2, 9, Ledger.empty⟩)
          deletionLabel + 1 ∧
      (1 < (⟨0, 0, 2, 1, 0, 1⟩ : Classifier).numerosity →
        p'.members = pre ++ { (⟨0, 0, 2, 1, 0, 1⟩ : Classifier) with
          numerosity := (⟨0, 0, 2, 1, 0, 1⟩ : Classifier).numerosity - 1 } :: post ∧
        p'.macroCount = Population.macroCount ⟨[⟨0, 0, 2, 1, 0, 1⟩], 2, 9, Ledger.empty⟩) ∧
      ((⟨0, 0, 2, 1, 0, 1⟩ : Classifier).numerosity = 1 →
        p'.members = pre ++ post ∧
        p'.macroCount + 1 = Population.macroCount ⟨[⟨0, 0, 2, 1, 0, 1⟩], 2, 9, Ledger.empty⟩ ∧
        ∀ x ∈ p'.members, x.id ≠ (⟨0, 0, 2, 1, 0, 1⟩ : Classifier).id) :=
  delete_single_copy_spec ⟨[⟨0, 0, 2, 1, 0, 1⟩], 2, 9, Ledger.empty⟩ ⟨0, 0, 2, 1, 0, 1⟩
    (by decide) (by decide)

/-- C9: every membership-requiring operation invoked with an absent
classifier — duplicate, delete, remove, and replace with an absent replacee
or replacer — fails with MemberNotFoundError before the operation body
runs, so no state change occurs. -/
theorem membership_guard_spec (p : Population) (cid other : Nat) (n : Nat)
    (lab1 lab2 lab3 lab4 : Option String) (h : p.containsId cid = false) :
    p.duplicate cid n lab1 = .error .memberNotFound ∧
    p.delete cid = .error .memberNotFound ∧
    p.remove cid lab2 = .error .memberNotFound ∧
    p.replace cid other lab3 = .error .memberNotFound ∧
    p.replace other cid lab4 = .error .memberNotFound := by
  have he := verifyMembership_err p cid h
  refine ⟨?_, ?_, ?_, ?_, ?_⟩
  · unfold Population.duplicate
    rw [he]
  · unfold Population.delete
    rw [he]
  · unfold Population.remove
    rw [he]
  · unfold Population.replace
    rw [he]
  · unfold Population.replace
    cases hc : p.containsId other with
    | false => rw [verifyMembership_err p other hc]
    | true => rw [verifyMembership_ok p other hc, he]

theorem membership_guard_spec_witness :
    Population.duplicate ⟨[⟨0, 0, 2, 1, 0, 1⟩], 2, 9, Ledger.empty⟩ 3 1 none =
      .error .memberNotFound ∧
    Population.delete ⟨[⟨0, 0, 2, 1, 0, 1⟩], 2, 9, Ledger.empty⟩ 3 =
      .error .memberNotFound ∧
    Population.remove ⟨[⟨0, 0, 2, 1, 0, 1⟩], 2, 9, Ledger.empty⟩ 3 none =
      .error .memberNotFound ∧
    Population.replace ⟨[⟨0, 0, 2, 1, 0, 1⟩], 2, 9, Ledger.empty⟩ 3 0 none =
      .error .memberNotFound ∧
    Population.replace ⟨[⟨0, 0, 2, 1, 0, 1⟩], 2, 9, Ledger.empty⟩ 0 3 none =
      .error .memberNotFound :=
  membership_guard_spec ⟨[⟨0, 0, 2, 1, 0, 1⟩], 2, 9, Ledger.empty⟩ 3 0 1 none none none none
    (by decide)

/-- C8 (amended): construction raises InvalidSizeError exactly when the
int() truncation of the supplied max_micros is not positive; on success the
population starts empty with num_micros = 0 and max_micros equal to that
truncation, which coincides with the supplied value whenever the supplied
value is an integer. -/
theorem population_init_spec (q : ℚ) :
    (mkPopulation q = .error .invalidSize ↔ pyInt q ≤ 0) ∧
    (∀ p', mkPopulation q = .ok p' →
      p'.numMicros = 0 ∧ p'.maxMicros = pyInt q ∧ p'.members = [] ∧
      p'.recorder = Ledger.empty) ∧
    (q.den = 1 → (pyInt q : ℚ) = q) := by
  have hmk : mkPopulation q =
      (if 0 < pyInt q then .ok ⟨[], 0, pyInt q, Ledger.empty⟩ else .error .invalidSize) := by
    unfold mkPopulation validateAndReturnMaxMicros
    by_cases h0 : 0 < pyInt q
    · rw [if_pos h0, if_pos h0]
    · rw [if_neg h0, if_neg h0]
  refine ⟨?_, ?_, ?_⟩
  · rw [hmk]
    by_cases h0 : 0 < pyInt q
    · rw [if_pos h0]
      constructor
      · intro habs
        cases habs
      · intro hle
        omega
    · rw [if_neg h0]
      constructor
      · intro _
        omega
      · intro _
        rfl
  · intro p' hp'
    rw [hmk] at hp'
    by_cases h0 : 0 < pyInt q
    · rw [if_pos h0] at hp'
      cases hp'
      exact ⟨rfl, rfl, rfl, rfl⟩
    · rw [if_neg h0] at hp'
      cases hp'
  · intro hden
    have hq : ((q.num : ℚ)) = q := (Rat.den_eq_one_iff q).mp hden
    unfold pyInt
    by_cases h0 : 0 ≤ q
    · rw [if_pos h0]
      have hfl : ⌊q⌋ = q.num := by
        rw [← hq]
        exact Int.floor_intCast q.num
      rw [hfl, hq]
    · rw [if_neg h0]
      have hcl : ⌈q⌉ = q.num := by
        rw [← hq]
        exact Int.ceil_intCast q.num
      rw [hcl, hq]

theorem population_init_spec_witness :
    (mkPopulation 5 = .error .invalidSize ↔ pyInt 5 ≤ 0) ∧
    (mkPopulation 5 = .ok ⟨[], 0, 5, Ledger.empty⟩ ∧
      (⟨[], 0, 5, Ledger.empty⟩ : Population).numMicros = 0 ∧
      (⟨[], 0, 5, Ledger.empty⟩ : Population).maxMicros = pyInt 5) :=
  ⟨(population_init_spec 5).1,
    by decide,
    ((population_init_spec 5).2.1 ⟨[], 0, 5, Ledger.empty⟩ (by decide)).1,
    by
      have h := ((population_init_spec 5).2.1 ⟨[], 0, 5, Ledger.empty⟩ (by decide)).2.1
      exact h⟩

/-- C8 counterexample: 27/10 is not a positive integer, yet construction
succeeds rather than raising InvalidSizeError, and the stored max_micros is
the truncation 2, not the supplied value. -/
theorem population_init_truncates :
    mkPopulation (27 / 10) = .ok ⟨[], 0, 2, Ledger.empty⟩ ∧
    (27 / 10 : ℚ).den ≠ 1 ∧
    ((2 : ℚ) ≠ 27 / 10) := by
  decide

/-- A positive deletion vote results from positive fitness, positive
action-set size, positive numerosity and positive mean fitness, whether or
not the vote is inflated. -/
theorem calcDeletionVote_eq (hp : DeletionParams) (c : Classifier) (meanFit : ℚ) :
    calcDeletionVote hp c meanFit =
      if hp.thetaDel < c.experience ∧
          c.fitness / (c.numerosity : ℚ) < hp.delta * meanFit then
        (c.actionSetSize * (c.numerosity : ℚ)) *
          (meanFit / (c.fitness / (c.numerosity : ℚ)))
      else c.actionSetSize * (c.numerosity : ℚ) := rfl

theorem calcVote_pos (hp : DeletionParams) (c : Classifier) (meanFit : ℚ)
    (hnum : 1 ≤ c.numerosity) (hfit : 0 < c.fitness) (hasz : 0 < c.actionSetSize)
    (hmean : 0 < meanFit) : 0 < calcDeletionVote hp c meanFit := by
  rw [calcDeletionVote_eq]
  have hn : (0 : ℚ) < (c.numerosity : ℚ) := by
    exact_mod_cast Nat.lt_of_lt_of_le Nat.zero_lt_one hnum
  have hbase : 0 < c.actionSetSize * (c.numerosity : ℚ) := mul_pos hasz hn
  have hr : 0 < c.fitness / (c.numerosity : ℚ) := div_pos hfit hn
  split
  · exact mul_pos hbase (div_pos hmean hr)
  · exact hbase

/-- C6 (amended): with the hyperparameter delta positive and at most one and
the classifier's fitness, action_set_size and numerosity positive, a
classifier meeting both the experience and the low-fitness condition gets
a vote strictly above its base vote action_set_size * numerosity, and a
classifier failing either condition gets exactly the base vote. -/
theorem deletion_vote_spec (hp : DeletionParams) (c : Classifier) (meanFit : ℚ)
    (hfit : 0 < c.fitness) (hasz : 0 < c.actionSetSize) (hnum : 1 ≤ c.numerosity)
    (hd0 : 0 < hp.delta) (hd1 : hp.delta ≤ 1) :
    ((hp.thetaDel < c.experience ∧
        c.fitness / (c.numerosity : ℚ) < hp.delta * meanFit) →
      c.actionSetSize * (c.numerosity : ℚ) < calcDeletionVote hp c meanFit) ∧
    (¬(hp.thetaDel < c.experience ∧
        c.fitness / (c.numerosity : ℚ) < hp.delta * meanFit) →
      calcDeletionVote hp c meanFit = c.actionSetSize * (c.numerosity : ℚ)) := by
  have hn : (0 : ℚ) < (c.numerosity : ℚ) := by
    exact_mod_cast Nat.lt_of_lt_of_le Nat.zero_lt_one hnum
  have hbase : 0 < c.actionSetSize * (c.numerosity : ℚ) := mul_pos hasz hn
  have hr : 0 < c.fitness / (c.numerosity : ℚ) := div_pos hfit hn
  constructor
  · intro hcond
    have hdm : 0 < hp.delta * meanFit := lt_trans hr hcond.2
    have hmean : 0 < meanFit := by
      rcases mul_pos_iff.mp hdm with ⟨_, h⟩ | ⟨h, _⟩
      · exact h
      · exact absurd hd0 (by linarith)
    have hrm : c.fitness / (c.numerosity : ℚ) < meanFit :=
      lt_of_lt_of_le hcond.2 (by nlinarith)
    have hkey : 1 < meanFit / (c.fitness / (c.numerosity : ℚ)) :=
      (one_lt_div hr).mpr hrm
    rw [calcDeletionVote_eq, if_pos hcond]
    exact lt_mul_of_one_lt_right hbase hkey
  · intro hcond
    rw [calcDeletionVote_eq, if_neg hcond]

theorem deletion_vote_spec_witness :
    (((⟨20, 1 / 10⟩ : DeletionParams).thetaDel < (⟨0, 0, 1, 1, 30, 1⟩ : Classifier).experience ∧
        (⟨0, 0, 1, 1, 30, 1⟩ : Classifier).fitness /
            ((⟨0, 0, 1, 1, 30, 1⟩ : Classifier).numerosity : ℚ) <
          (⟨20, 1 / 10⟩ : DeletionParams).delta * 20) →
      (⟨0, 0, 1, 1, 30, 1⟩ : Classifier).actionSetSize *
          ((⟨0, 0, 1, 1, 30, 1⟩ : Classifier).numerosity : ℚ) <
        calcDeletionVote ⟨20, 1 / 10⟩ ⟨0, 0, 1, 1, 30, 1⟩ 20) ∧
    (¬((⟨20, 1 / 10⟩ : DeletionParams).thetaDel < (⟨0, 0, 1, 1, 30, 1⟩ : Classifier).experience ∧
        (⟨0, 0, 1, 1, 30, 1⟩ : Classifier).fitness /
            ((⟨0, 0, 1, 1, 30, 1⟩ : Classifier).numerosity : ℚ) <
          (⟨20, 1 / 10⟩ : DeletionParams).delta * 20) →
      calcDeletionVote ⟨20, 1 / 10⟩ ⟨0, 0, 1, 1, 30, 1⟩ 20 =
        (⟨0, 0, 1, 1, 30, 1⟩ : Classifier).actionSetSize *
          ((⟨0, 0, 1, 1, 30, 1⟩ : Classifier).numerosity : ℚ)) :=
  deletion_vote_spec ⟨20, 1 / 10⟩ ⟨0, 0, 1, 1, 30, 1⟩ 20
    (by decide) (by decide) (by decide) (by decide) (by decide)

/-- C6 counterexample: with delta = 2 a classifier can satisfy both the
experience condition and the low-fitness condition and still receive a vote
strictly below its base vote, because its fitness/numerosity ratio exceeds
the population mean fitness. -/
theorem deletion_vote_inflation_not_strict :
    ((⟨0, 2⟩ : DeletionParams).thetaDel < (⟨0, 0, 2, 3, 1, 1⟩ : Classifier).experience ∧
      (⟨0, 0, 2, 3, 1, 1⟩ : Classifier).fitness /
          ((⟨0, 0, 2, 3, 1, 1⟩ : Classifier).numerosity : ℚ) <
        (⟨0, 2⟩ : DeletionParams).delta * 1) ∧
    calcDeletionVote ⟨0, 2⟩ ⟨0, 0, 2, 3, 1, 1⟩ 1 <
      (⟨0, 0, 2, 3, 1, 1⟩ : Classifier).actionSetSize *
        ((⟨0, 0, 2, 3, 1, 1⟩ : Classifier).numerosity : ℚ) := by
  decide

/-- The roulette scan, started at running sum `acc` with `acc ≤ cp` and
with the choice point `cp` strictly below the final running sum, returns
the first entry whose running sum strictly exceeds `cp`. -/
theorem scanSelect_first (pairs : List (Classifier × ℚ)) (acc cp : ℚ)
    (h1 : acc ≤ cp) (h2 : cp < acc + ((pairs.map Prod.snd).sum)) :
    ∃ j, ∃ hj : j < pairs.length,
      scanSelect pairs acc cp = some (pairs.get ⟨j, hj⟩).1 ∧
      cp < acc + (((pairs.map Prod.snd).take (j + 1)).sum) ∧
      ∀ k, k < j → acc + (((pairs.map Prod.snd).take (k + 1)).sum) ≤ cp := by
  induction pairs generalizing acc with
  | nil =>
      exfalso
      simp only [List.map_nil, List.sum_nil, add_zero] at h2
      linarith
  | cons hd tl ih =>
      obtain ⟨c, v⟩ := hd
      by_cases hcv : cp < acc + v
      · refine ⟨0, by simp, ?_, ?_, ?_⟩
        · show scanSelect ((c, v) :: tl) acc cp = some c
          unfold scanSelect
          rw [if_pos hcv]
        · simpa using hcv
        · intro k hk
          omega
      · push_neg at hcv
        have h2' : cp < (acc + v) + ((tl.map Prod.snd).sum) := by
          simp only [List.map_cons, List.sum_cons] at h2
          linarith
        obtain ⟨j, hj, hsel, hlt, hle⟩ := ih (acc + v) hcv h2'
        refine ⟨j + 1, by simpa using Nat.succ_lt_succ hj, ?_, ?_, ?_⟩
        · show scanSelect ((c, v) :: tl) acc cp = _
          unfold scanSelect
          rw [if_neg (by linarith)]
          exact hsel
        · simp only [List.map_cons, List.take_succ_cons, List.sum_cons]
          linarith
        · intro k hk
          cases k with
          | zero =>
              simpa using hcv
          | succ k' =>
              have := hle k' (by omega)
              simp only [List.map_cons, List.take_succ_cons, List.sum_cons]
              linarith

/-- Modelled mean fitness is positive on a nonempty population of
positive-fitness members. -/
theorem meanFitness_pos (p : Population) (hne : p.members ≠ [])
    (hfit : ∀ c ∈ p.members, 0 < c.fitness) : 0 < meanFitness p := by
  unfold meanFitness
  apply div_pos
  · apply List.sum_pos
    · intro v hv
      obtain ⟨c, hc, rfl⟩ := List.mem_map.mp hv
      exact hfit c hc
    · simpa using hne
  · have : 0 < p.members.length := List.length_pos.mpr hne
    exact_mod_cast this

/-- Every deletion vote is positive on a well-formed population whose
members all have positive fitness and positive action-set size. -/
theorem deletionVotes_pos (hp : DeletionParams) (p : Population) (hInv : Inv p)
    (hfit : ∀ c ∈ p.members, 0 < c.fitness)
    (hasz : ∀ c ∈ p.members, 0 < c.actionSetSize)
    (hne : p.members ≠ []) :
    ∀ v ∈ deletionVotes hp p, 0 < v := by
  intro v hv
  obtain ⟨c, hc, rfl⟩ := List.mem_map.mp hv
  exact calcVote_pos hp c (meanFitness p) (hInv.2.1 c hc) (hfit c hc) (hasz c hc)
    (meanFitness_pos p hne hfit)

/-- The total vote is positive under the same conditions. -/
theorem totalVote_pos (hp : DeletionParams) (p : Population) (hInv : Inv p)
    (hfit : ∀ c ∈ p.members, 0 < c.fitness)
    (hasz : ∀ c ∈ p.members, 0 < c.actionSetSize)
    (hne : p.members ≠ []) : 0 < totalVote hp p := by
  unfold totalVote
  apply List.sum_pos
  · exact deletionVotes_pos hp p hInv hfit hasz hne
  · unfold deletionVotes
    simpa using hne

/-- Successful selection: with positive votes and a draw in [0,1), the
roulette wheel returns the first member in iteration order whose running
vote sum strictly exceeds the choice point r * total_vote. -/
theorem select_some (hp : DeletionParams) (p : Population) (r : ℚ) (hInv : Inv p)
    (hfit : ∀ c ∈ p.members, 0 < c.fitness)
    (hasz : ∀ c ∈ p.members, 0 < c.actionSetSize)
    (hr0 : 0 ≤ r) (hr1 : r < 1) (hne : p.members ≠ []) :
    ∃ j, ∃ hj : j < p.members.length,
      selectForDeletion hp p r = some (p.members.get ⟨j, hj⟩) ∧
      r * totalVote hp p < ((deletionVotes hp p).take (j + 1)).sum ∧
      ∀ k, k < j → ((deletionVotes hp p).take (k + 1)).sum ≤ r * totalVote hp p := by
  have htot : 0 < totalVote hp p := totalVote_pos hp p hInv hfit hasz hne
  have hlen : (deletionVotes hp p).length = p.members.length := by
    unfold deletionVotes
    simp
  have hsnd : (p.members.zip (deletionVotes hp p)).map Prod.snd = deletionVotes hp p :=
    List.map_snd_zip _ _ (by omega)
  have hfst : (p.members.zip (deletionVotes hp p)).map Prod.fst = p.members :=
    List.map_fst_zip _ _ (by omega)
  have hcp0 : 0 ≤ r * totalVote hp p := mul_nonneg hr0 htot.le
  have hcp1 : r * totalVote hp p < 0 + ((p.members.zip (deletionVotes hp p)).map Prod.snd).sum := by
    rw [hsnd, zero_add]
    calc r * totalVote hp p < 1 * totalVote hp p := by
          exact mul_lt_mul_of_pos_right hr1 htot
      _ = totalVote hp p := one_mul _
  obtain ⟨j, hj, hsel, hlt, hle⟩ :=
    scanSelect_first (p.members.zip (deletionVotes hp p)) 0 (r * totalVote hp p) hcp0 hcp1
  have hjm : j < p.members.length := by
    have := hj
    rw [List.length_zip] at this
    omega
  refine ⟨j, hjm, ?_, ?_, ?_⟩
  · show scanSelect (p.members.zip (deletionVotes hp p)) 0 (r * totalVote hp p) = _
    rw [hsel, List.get_zip]
  · have := hlt
    rw [hsnd, zero_add] at this
    exact this
  · intro k hk
    have := hle k hk
    rw [hsnd, zero_add] at this
    exact this

/-- C7 (amended): in a deletion round on a well-formed population whose
members all have positive fitness and positive action_set_size, with the
round's uniform draw r in [0,1): the choice point r * total_vote lies in
[0, total_vote), the scan selects the first member in iteration order whose
running vote sum strictly exceeds the choice point, some member is always
selected, and the enforcement loop passes exactly that member to
Population.delete. -/
theorem roulette_selection_spec (hp : DeletionParams) (draws : Nat → ℚ)
    (p : Population) (i : Nat) (hInv : Inv p)
    (hfit : ∀ c ∈ p.members, 0 < c.fitness)
    (hasz : ∀ c ∈ p.members, 0 < c.actionSetSize)
    (hr0 : 0 ≤ draws i) (hr1 : draws i < 1) (hne : p.members ≠ []) :
    ∃ c, selectForDeletion hp p (draws i) = some c ∧
      (0 ≤ draws i * totalVote hp p ∧ draws i * totalVote hp p < totalVote hp p) ∧
      (∃ j, ∃ hj : j < p.members.length, c = p.members.get ⟨j, hj⟩ ∧
        draws i * totalVote hp p < ((deletionVotes hp p).take (j + 1)).sum ∧
        ∀ k, k < j → ((deletionVotes hp p).take (k + 1)).sum ≤ draws i * totalVote hp p) ∧
      (∀ k, performDeletionsAux hp draws (k + 1) i p =
        Except.bind (p.delete c.id) (performDeletionsAux hp draws k (i + 1))) := by
  obtain ⟨j, hj, hsel, hlt, hle⟩ := select_some hp p (draws i) hInv hfit hasz hr0 hr1 hne
  have htot : 0 < totalVote hp p := totalVote_pos hp p hInv hfit hasz hne
  refine ⟨p.members.get ⟨j, hj⟩, hsel, ⟨mul_nonneg hr0 htot.le, ?_⟩,
    ⟨j, hj, rfl, hlt, hle⟩, ?_⟩
  · calc draws i * totalVote hp p < 1 * totalVote hp p :=
        mul_lt_mul_of_pos_right hr1 htot
      _ = totalVote hp p := one_mul _
  · intro k
    show performDeletionsAux hp draws (k + 1) i p = _
    unfold performDeletionsAux
    rw [hsel]
    show (match p.delete (p.members.get ⟨j, hj⟩).id with
          | .error e => .error e
          | .ok p' => performDeletionsAux hp draws k (i + 1) p') =
        Except.bind (p.delete (p.members.get ⟨j, hj⟩).id)
          (performDeletionsAux hp draws k (i + 1))
    cases p.delete (p.members.get ⟨j, hj⟩).id <;> rfl

theorem roulette_selection_spec_witness :
    ∃ c, selectForDeletion ⟨20, 1 / 10⟩ ⟨[⟨0, 0, 1, 1, 0, 1⟩], 1, 5, Ledger.empty⟩
        ((fun _ => (0 : ℚ)) 0) = some c ∧
      (0 ≤ (fun _ => (0 : ℚ)) 0 *
          totalVote ⟨20, 1 / 10⟩ ⟨[⟨0, 0, 1, 1, 0, 1⟩], 1, 5, Ledger.empty⟩ ∧
        (fun _ => (0 : ℚ)) 0 *
            totalVote ⟨20, 1 / 10⟩ ⟨[⟨0, 0, 1, 1, 0, 1⟩], 1, 5, Ledger.empty⟩ <
          totalVote ⟨20, 1 / 10⟩ ⟨[⟨0, 0, 1, 1, 0, 1⟩], 1, 5, Ledger.empty⟩) ∧
      (∃ j, ∃ hj : j <
          (⟨[⟨0, 0, 1, 1, 0, 1⟩], 1, 5, Ledger.empty⟩ : Population).members.length,
        c = (⟨[⟨0, 0, 1, 1, 0, 1⟩], 1, 5, Ledger.empty⟩ : Population).members.get ⟨j, hj⟩ ∧
        (fun _ => (0 : ℚ)) 0 *
            totalVote ⟨20, 1 / 10⟩ ⟨[⟨0, 0, 1, 1, 0, 1⟩], 1, 5, Ledger.empty⟩ <
          ((deletionVotes ⟨20, 1 / 10⟩
            ⟨[⟨0, 0, 1, 1, 0, 1⟩], 1, 5, Ledger.empty⟩).take (j + 1)).sum ∧
        ∀ k, k < j → ((deletionVotes ⟨20, 1 / 10⟩
            ⟨[⟨0, 0, 1, 1, 0, 1⟩], 1, 5, Ledger.empty⟩).take (k + 1)).sum ≤
          (fun _ => (0 : ℚ)) 0 *
            totalVote ⟨20, 1 / 10⟩ ⟨[⟨0, 0, 1, 1, 0, 1⟩], 1, 5, Ledger.empty⟩) ∧
      (∀ k, performDeletionsAux ⟨20, 1 / 10⟩ (fun _ => (0 : ℚ)) (k + 1) 0
          ⟨[⟨0, 0, 1, 1, 0, 1⟩], 1, 5, Ledger.empty⟩ =
        Except.bind (Population.delete ⟨[⟨0, 0, 1, 1, 0, 1⟩], 1, 5, Ledger.empty⟩ c.id)
          (performDeletionsAux ⟨20, 1 / 10⟩ (fun _ => (0 : ℚ)) k 1)) :=
  roulette_selection_spec ⟨20, 1 / 10⟩ (fun _ => (0 : ℚ))
    ⟨[⟨0, 0, 1, 1, 0, 1⟩], 1, 5, Ledger.empty⟩ 0
    (by decide) (by decide) (by decide) (by decide) (by decide) (by decide)

/-- C7 counterexample: on a population over capacity whose single member
has action_set_size 0, every vote is 0, so the scan runs off the end and
no member is selected — the selection returns nothing rather than a
member. -/
theorem roulette_selection_can_return_none :
    (⟨[⟨0, 0, 3, 1, 0, 0⟩], 3, 2, Ledger.empty⟩ : Population).maxMicros <
      (⟨[⟨0, 0, 3, 1, 0, 0⟩], 3, 2, Ledger.empty⟩ : Population).numMicros ∧
    Inv ⟨[⟨0, 0, 3, 1, 0, 0⟩], 3, 2, Ledger.empty⟩ ∧
    ((0 : ℚ) ≤ 1 / 2 ∧ (1 / 2 : ℚ) < 1) ∧
    selectForDeletion ⟨20, 1 / 10⟩ ⟨[⟨0, 0, 3, 1, 0, 0⟩], 3, 2, Ledger.empty⟩ (1 / 2) =
      none := by
  decide

/-- Each enforcement round of _perform_deletions succeeds and removes
exactly one micro-copy, provided the population is well formed with
positive member fitness and action-set sizes and at least as many micros
as remaining rounds. -/
theorem performDeletionsAux_spec (hp : DeletionParams) (draws : Nat → ℚ)
    (hdraws : ∀ i, 0 ≤ draws i ∧ draws i < 1) :
    ∀ (k i : Nat) (p : Population),
      Inv p → (∀ c ∈ p.members, 0 < c.fitness ∧ 0 < c.actionSetSize) →
      ((k : Int) ≤ p.numMicros) →
      ∃ p', performDeletionsAux hp draws k i p = .ok p' ∧
        p'.numMicros = p.numMicros - (k : Int) ∧
        p'.maxMicros = p.maxMicros ∧ Inv p' ∧
        (∀ c ∈ p'.members, 0 < c.fitness ∧ 0 < c.actionSetSize) := by
  intro k
  induction k with
  | zero =>
      intro i p hInv hpos _
      exact ⟨p, rfl, by simp, rfl, hInv, hpos⟩
  | succ k ih =>
      intro i p hInv hpos hk
      have hne : p.members ≠ [] := by
        intro hnil
        rw [hInv.1, hnil] at hk
        have : microsSum [] = 0 := rfl
        rw [this] at hk
        have hcast : (1 : Int) ≤ ((k + 1 : Nat) : Int) := by
          exact_mod_cast Nat.succ_le_succ (Nat.zero_le k)
        omega
      obtain ⟨j, hj, hsel, _, _⟩ := select_some hp p (draws i) hInv
        (fun c hc => (hpos c hc).1) (fun c hc => (hpos c hc).2)
        (hdraws i).1 (hdraws i).2 hne
      have hmemc : p.members.get ⟨j, hj⟩ ∈ p.members := List.get_mem p.members j hj
      obtain ⟨pre, post, p1, hdec, hpre, hpost, hdel, hnum1, hmax1, _, hbig, hsmall, hInv1⟩ :=
        delete_found p (p.members.get ⟨j, hj⟩) hInv hmemc
      have hpos1 : ∀ c ∈ p1.members, 0 < c.fitness ∧ 0 < c.actionSetSize := by
        by_cases hgt : 1 < (p.members.get ⟨j, hj⟩).numerosity
        · rw [hbig hgt]
          intro x hx
          rcases List.mem_append.mp hx with h | h
          · exact hpos x (hdec ▸ List.mem_append.mpr (Or.inl h))
          · rcases List.mem_cons.mp h with rfl | h'
            · have hc := hpos (p.members.get ⟨j, hj⟩) hmemc
              exact ⟨hc.1, hc.2⟩
            · exact hpos x (hdec ▸ List.mem_append.mpr (Or.inr (List.mem_cons_of_mem _ h')))
        · have hone : (p.members.get ⟨j, hj⟩).numerosity = 1 := by
            have := hInv.2.1 _ hmemc
            omega
          rw [hsmall hone]
          intro x hx
          rcases List.mem_append.mp hx with h | h
          · exact hpos x (hdec ▸ List.mem_append.mpr (Or.inl h))
          · exact hpos x (hdec ▸ List.mem_append.mpr (Or.inr (List.mem_cons_of_mem _ h)))
      have hunf : performDeletionsAux hp draws (k + 1) i p =
          (match selectForDeletion hp p (draws i) with
           | none => Except.error PopError.memberNotFound
           | some c =>
             match p.delete c.id with
             | Except.error e => Except.error e
             | Except.ok p' => performDeletionsAux hp draws k (i + 1) p') := rfl
      have hstep : performDeletionsAux hp draws (k + 1) i p =
          performDeletionsAux hp draws k (i + 1) p1 := by
        rw [hunf, hsel]
        show (match p.delete (p.members.get ⟨j, hj⟩).id with
              | Except.error e => Except.error e
              | Except.ok p' => performDeletionsAux hp draws k (i + 1) p') =
            performDeletionsAux hp draws k (i + 1) p1
        rw [hdel]
      have hk1 : ((k : Int) ≤ p1.numMicros) := by
        rw [hnum1]
        have hcast : ((k + 1 : Nat) : Int) = (k : Int) + 1 := by push_cast; ring
        omega
      obtain ⟨p2, heq2, hnum2, hmax2, hInv2, hpos2⟩ := ih (i + 1) p1 hInv1 hpos1 hk1
      refine ⟨p2, ?_, ?_, ?_, hInv2, hpos2⟩
      · rw [hstep]
        exact heq2
      · rw [hnum2, hnum1]
        have hcast : ((k + 1 : Nat) : Int) = (k : Int) + 1 := by push_cast; ring
        omega
      · rw [hmax2, hmax1]

/-- C2 (amended): on a well-formed population whose members all have
positive fitness and positive action_set_size, with a nonnegative capacity
and uniform draws in [0,1): when num_micros > max_micros the deletion
policy performs exactly num_micros - max_micros single-copy deletions and
terminates successfully with num_micros = max_micros; when
num_micros <= max_micros it succeeds leaving the population unchanged. -/
theorem deletion_policy_capacity (hp : DeletionParams) (draws : Nat → ℚ)
    (p : Population) (hInv : Inv p) (hmax : 0 ≤ p.maxMicros)
    (hpos : ∀ c ∈ p.members, 0 < c.fitness ∧ 0 < c.actionSetSize)
    (hdraws : ∀ i, 0 ≤ draws i ∧ draws i < 1) :
    ∃ p', runDeletionPolicy hp draws p = .ok p' ∧
      (p.maxMicros < p.numMicros → p'.numMicros = p.maxMicros) ∧
      (p.numMicros ≤ p.maxMicros → p' = p) := by
  by_cases hover : p.maxMicros < p.numMicros
  · have hexc1 : 1 ≤ (p.numMicros - p.maxMicros).toNat := by omega
    have hkle : (((p.numMicros - p.maxMicros).toNat : Int)) ≤ p.numMicros := by
      rw [Int.toNat_of_nonneg (by omega)]
      omega
    obtain ⟨p', haux, hnum, hmax', hInv', _⟩ :=
      performDeletionsAux_spec hp draws hdraws (p.numMicros - p.maxMicros).toNat 0 p
        hInv hpos hkle
    have hnum' : p'.numMicros = p.maxMicros := by
      rw [hnum, Int.toNat_of_nonneg (by omega)]
      omega
    refine ⟨p', ?_, fun _ => hnum', fun hle => absurd hle (by omega)⟩
    unfold runDeletionPolicy performDeletions
    rw [if_pos hover, if_pos hexc1, haux]
    show (if p'.numMicros ≤ p'.maxMicros then Except.ok p'
          else Except.error PopError.assertionError) = Except.ok p'
    rw [if_pos (by rw [hnum', hmax'])]
  · refine ⟨p, ?_, fun h => absurd h hover, fun _ => rfl⟩
    unfold runDeletionPolicy
    rw [if_neg hover]
    show (if p.numMicros ≤ p.maxMicros then Except.ok p
          else Except.error PopError.assertionError) = Except.ok p
    rw [if_pos (by omega)]

theorem deletion_policy_capacity_witness :
    ∃ p', runDeletionPolicy ⟨20, 1 / 10⟩ (fun _ => 1 / 2)
        ⟨[⟨0, 0, 2, 1, 0, 1⟩], 2, 1, Ledger.empty⟩ = .ok p' ∧
      ((⟨[⟨0, 0, 2, 1, 0, 1⟩], 2, 1, Ledger.empty⟩ : Population).maxMicros <
          (⟨[⟨0, 0, 2, 1, 0, 1⟩], 2, 1, Ledger.empty⟩ : Population).numMicros →
        p'.numMicros = (⟨[⟨0, 0, 2, 1, 0, 1⟩], 2, 1, Ledger.empty⟩ : Population).maxMicros) ∧
      ((⟨[⟨0, 0, 2, 1, 0, 1⟩], 2, 1, Ledger.empty⟩ : Population).numMicros ≤
          (⟨[⟨0, 0, 2, 1, 0, 1⟩], 2, 1, Ledger.empty⟩ : Population).maxMicros →
        p' = ⟨[⟨0, 0, 2, 1, 0, 1⟩], 2, 1, Ledger.empty⟩) :=
  deletion_policy_capacity ⟨20, 1 / 10⟩ (fun _ => 1 / 2)
    ⟨[⟨0, 0, 2, 1, 0, 1⟩], 2, 1, Ledger.empty⟩ (by decide) (by decide) (by decide)
    (fun _ => ⟨by norm_num, by norm_num⟩)

/-- C2 counterexample: a population over capacity whose single member has
action_set_size 0 makes every vote 0; the selection returns no member,
Population.delete is invoked on it and raises MemberNotFoundError, so the
policy neither completes the deletions nor leaves num_micros = max_micros. -/
theorem deletion_policy_zero_vote_raises :
    (⟨[⟨0, 0, 2, 1, 0, 0⟩], 2, 1, Ledger.empty⟩ : Population).maxMicros <
      (⟨[⟨0, 0, 2, 1, 0, 0⟩], 2, 1, Ledger.empty⟩ : Population).numMicros ∧
    Inv ⟨[⟨0, 0, 2, 1, 0, 0⟩], 2, 1, Ledger.empty⟩ ∧
    ((0 : ℚ) ≤ 0 ∧ (0 : ℚ) < 1) ∧
    runDeletionPolicy ⟨20, 1 / 10⟩ (fun _ => 0)
      ⟨[⟨0, 0, 2, 1, 0, 0⟩], 2, 1, Ledger.empty⟩ = .error .memberNotFound := by
  decide

end Piecewise
